import Mathlib

/-!
Verification of the `jsondb` storage engine (src/jsondb/__init__.py).

The file models the engine shallowly:

* A text-mode file handle is a pair of `content : List Char` and a cursor
  `pos : Nat`; one character stands for one byte.  All data the engine writes
  is ASCII (`json.dumps` has `ensure_ascii=True`), so character offsets and
  byte offsets agree on every reachable file.
* Python values storable as JSON are the inductive `JValue` (ints, strings,
  arrays, objects; floats, booleans and null are not modelled — no claim
  involves them).  Python `dict`s are association lists in insertion order,
  which matches CPython's ordered dicts.
* `json.dumps` is `dumps` (default separators `", "` / `": "`, the five
  common escapes; `\uXXXX` escapes for exotic control and non-ASCII
  characters are not modelled, those characters are kept literally — they
  never include a newline, which is the only property the engine relies on).
* `json.loads` is `pyJsonLoads`, a fuel-based recursive-descent parser that
  accepts the printer's output surrounded by JSON whitespace and rejects
  everything claims depend on being rejected (trailing data, bad escapes,
  unterminated strings).  Python's rejection of leading zeros in numbers and
  its acceptance of floats are not modelled.
* Exceptions are the `PyError` inductive; operations return their result
  together with the mutated state (mutations performed before a raise are
  kept, as in Python).
-/

/-- Model of a Python value that can appear in the database: JSON ints,
strings, arrays and objects. Objects are association lists in insertion
order, mirroring CPython dicts. -/
inductive JValue where
  | jnum : Int → JValue
  | jstr : List Char → JValue
  | jarr : List JValue → JValue
  | jobj : List (List Char × JValue) → JValue

/-- Whitespace characters skipped by Python's `json` scanner. -/
def isJsonWs (c : Char) : Bool :=
  c = ' ' || c = '\t' || c = '\n' || c = '\r'

/-- Whitespace stripped by Python's `str.strip()` (the ASCII part). -/
def isPyWs (c : Char) : Bool :=
  c = ' ' || c = '\t' || c = '\n' || c = '\r' || c = '\x0b' || c = '\x0c'

/-- Python `str.strip()`. -/
def pyStrip (s : List Char) : List Char :=
  ((s.dropWhile isPyWs).reverse.dropWhile isPyWs).reverse

/-- Numeric value of a decimal digit character. -/
def digitVal (c : Char) : Nat := c.toNat - '0'.toNat

/-- Value of a list of decimal digit characters, most significant first. -/
def digitsToNat (ds : List Char) : Nat :=
  ds.foldl (fun a c => a * 10 + digitVal c) 0

/-- Decimal digits of `n`, most significant first (fuel-based so that it is
structurally recursive; `natRepr` supplies enough fuel). -/
def natReprAux : Nat → Nat → List Char
  | 0, _ => []
  | fuel+1, n =>
    if n < 10 then [Char.ofNat ('0'.toNat + n)]
    else natReprAux fuel (n / 10) ++ [Char.ofNat ('0'.toNat + n % 10)]

/-- Python `str(n)` for a natural number. -/
def natRepr (n : Nat) : List Char := natReprAux (n + 1) n

/-- Python `str(i)` / `json.dumps(i)` for an integer. -/
def dumpsInt (i : Int) : List Char :=
  if i < 0 then '-' :: natRepr i.natAbs else natRepr i.toNat

/-- The digits of a nonnegative-number token, Python `int(...)` body. -/
def parseDigits (ds : List Char) : Option Nat :=
  if ds = [] then none
  else if ds.all Char.isDigit then some (digitsToNat ds) else none

/-- Python `int(s)` on an already-stripped string: optional sign followed by
decimal digits only. (Underscore separators and non-ASCII digits are not
modelled.) Returns `none` where Python raises `ValueError`. -/
def pyIntParse (t : List Char) : Option Int :=
  match t with
  | [] => none
  | c :: rest =>
    if c = '-' then (parseDigits rest).map (fun n => -(n : Int))
    else if c = '+' then (parseDigits rest).map (fun n => (n : Int))
    else (parseDigits (c :: rest)).map (fun n => (n : Int))

/-- Python `int(s)` (strips whitespace first, as `int` itself does). -/
def pyInt (s : List Char) : Option Int := pyIntParse (pyStrip s)

/-- The escaping performed by `json.dumps` on one string character
(`ensure_ascii` escaping of other control/non-ASCII characters is not
modelled; such characters are kept literally and are never a newline). -/
def escapeChar (c : Char) : List Char :=
  if c = '"' then ['\\', '"']
  else if c = '\\' then ['\\', '\\']
  else if c = '\n' then ['\\', 'n']
  else if c = '\r' then ['\\', 'r']
  else if c = '\t' then ['\\', 't']
  else [c]

/-- JSON string-body escaping of a whole string. -/
def escapeStr : List Char → List Char
  | [] => []
  | c :: t => escapeChar c ++ escapeStr t

mutual

/-- Python `json.dumps` with its default separators `", "` and `": "`. -/
def dumps : JValue → List Char
  | .jnum i => dumpsInt i
  | .jstr s => '"' :: escapeStr s ++ ['"']
  | .jarr l => '[' :: dumpsElems l ++ [']']
  | .jobj es => '{' :: dumpsMembers es ++ ['}']

/-- Comma-separated rendering of array elements. -/
def dumpsElems : List JValue → List Char
  | [] => []
  | [v] => dumps v
  | v :: rest => dumps v ++ ',' :: ' ' :: dumpsElems rest

/-- Comma-separated rendering of object members. -/
def dumpsMembers : List (List Char × JValue) → List Char
  | [] => []
  | [(k, v)] => '"' :: escapeStr k ++ '"' :: ':' :: ' ' :: dumps v
  | (k, v) :: rest =>
    '"' :: escapeStr k ++ '"' :: ':' :: ' ' :: dumps v ++ ',' :: ' ' :: dumpsMembers rest

end

/-- First-match lookup in an association list (Python `dict.get(k)`;
reachable dicts have unique keys, so first match is the match). -/
def alistGet {β : Type} : List (List Char × β) → List Char → Option β
  | [], _ => none
  | (k', v) :: rest, k => if k' = k then some v else alistGet rest k

/-- Python `dict.get(k, d)`. -/
def alistGetD {β : Type} (es : List (List Char × β)) (k : List Char) (d : β) : β :=
  (alistGet es k).getD d

/-- Python `dict[k] = v` / `dict.update({k: v})`: replace the value at the
first occurrence of `k`, keeping its position, or append a new entry. -/
def alistUpdate {β : Type} : List (List Char × β) → List Char → β → List (List Char × β)
  | [], k, v => [(k, v)]
  | (k', v') :: rest, k, v =>
    if k' = k then (k', v) :: rest else (k', v') :: alistUpdate rest k v

mutual

/-- Well-formedness of a modelled value as a Python value: object keys are
pairwise distinct (guaranteed by Python dicts, not by the raw inductive). -/
def JValue.wf : JValue → Bool
  | .jnum _ => true
  | .jstr _ => true
  | .jarr l => wfElems l
  | .jobj es => wfMembers es

/-- All array elements well-formed. -/
def wfElems : List JValue → Bool
  | [] => true
  | v :: rest => v.wf && wfElems rest

/-- All member values well-formed and keys distinct. -/
def wfMembers : List (List Char × JValue) → Bool
  | [] => true
  | (k, v) :: rest =>
    !((rest.map Prod.fst).contains k) && v.wf && wfMembers rest

end

mutual

/-- Fuel needed by `parseVal` to parse the printed form of a value. -/
def jsize : JValue → Nat
  | .jnum _ => 1
  | .jstr _ => 1
  | .jarr [] => 1
  | .jarr (v :: t) => 1 + jsizeElems (v :: t)
  | .jobj [] => 1
  | .jobj (m :: t) => 1 + jsizeMembers (m :: t)

/-- Fuel needed by `parseElems` on a nonempty element list. -/
def jsizeElems : List JValue → Nat
  | [] => 1
  | [v] => 1 + jsize v
  | v :: t => 1 + jsize v + jsizeElems t

/-- Fuel needed by `parseMembers` on a nonempty member list. -/
def jsizeMembers : List (List Char × JValue) → Nat
  | [] => 1
  | [(_, v)] => 1 + jsize v
  | (_, v) :: t => 1 + jsize v + jsizeMembers t

end

/-- Skip JSON whitespace. -/
def skipWs : List Char → List Char
  | [] => []
  | c :: t => if isJsonWs c then skipWs t else c :: t

/-- Longest run of decimal digits at the front, and the rest. -/
def takeDigits : List Char → List Char × List Char
  | [] => ([], [])
  | c :: t =>
    if c.isDigit then
      let p := takeDigits t
      (c :: p.1, p.2)
    else ([], c :: t)

/-- Parse a JSON integer token. (Python also accepts float syntax and rejects
leading zeros; neither is modelled — no claim depends on them.) -/
def parseIntTok (s : List Char) : Option (Int × List Char) :=
  match s with
  | [] => none
  | c :: t =>
    if c = '-' then
      match takeDigits t with
      | ([], _) => none
      | (ds, r) => some (-(digitsToNat ds : Int), r)
    else
      match takeDigits (c :: t) with
      | ([], _) => none
      | (ds, r) => some ((digitsToNat ds : Int), r)

/-- Inverse of `escapeChar` on the character after a backslash (the `\uXXXX`
form is not modelled). `none` where Python's scanner raises. -/
def unescapeChar (e : Char) : Option Char :=
  if e = '"' then some '"'
  else if e = '\\' then some '\\'
  else if e = '/' then some '/'
  else if e = 'n' then some '\n'
  else if e = 't' then some '\t'
  else if e = 'r' then some '\r'
  else if e = 'b' then some (Char.ofNat 8)
  else if e = 'f' then some (Char.ofNat 12)
  else none

mutual

/-- Parse a JSON string body after the opening quote: literal characters up
to the closing quote, with `parseStrEsc` handling the character after a
backslash. -/
def parseStrBody : List Char → Option (List Char × List Char)
  | [] => none
  | c :: t =>
    if c = '"' then some ([], t)
    else if c = '\\' then parseStrEsc t
    else (parseStrBody t).map (fun p => (c :: p.1, p.2))

/-- Decode the character after a backslash and continue with the string
body. -/
def parseStrEsc : List Char → Option (List Char × List Char)
  | [] => none
  | e :: t =>
    match unescapeChar e with
    | none => none
    | some d => (parseStrBody t).map (fun p => (d :: p.1, p.2))

end

mutual

/-- Recursive-descent JSON value parser (fuel bounds the nesting work). -/
def parseVal : Nat → List Char → Option (JValue × List Char)
  | 0, _ => none
  | fuel+1, s =>
    match s with
    | [] => none
    | c :: t =>
      if c = '"' then (parseStrBody t).map (fun p => (JValue.jstr p.1, p.2))
      else if c = '[' then
        match skipWs t with
        | [] => none
        | c2 :: r =>
          if c2 = ']' then some (JValue.jarr [], r)
          else (parseElems fuel (c2 :: r)).map (fun p => (JValue.jarr p.1, p.2))
      else if c = '{' then
        match skipWs t with
        | [] => none
        | c2 :: r =>
          if c2 = '}' then some (JValue.jobj [], r)
          else (parseMembers fuel (c2 :: r) []).map (fun p => (JValue.jobj p.1, p.2))
      else (parseIntTok (c :: t)).map (fun p => (JValue.jnum p.1, p.2))

/-- Parse a nonempty comma-separated element list up to and including `]`. -/
def parseElems : Nat → List Char → Option (List JValue × List Char)
  | 0, _ => none
  | fuel+1, s =>
    match parseVal fuel s with
    | none => none
    | some (v, r) =>
      match skipWs r with
      | [] => none
      | c2 :: r2 =>
        if c2 = ',' then (parseElems fuel (skipWs r2)).map (fun p => (v :: p.1, p.2))
        else if c2 = ']' then some ([v], r2)
        else none

/-- Parse a nonempty member list up to and including the closing brace,
accumulating entries with dict-update semantics (later duplicate keys
overwrite, as in Python). -/
def parseMembers : Nat → List Char → List (List Char × JValue) →
    Option (List (List Char × JValue) × List Char)
  | 0, _, _ => none
  | fuel+1, s, acc =>
    match s with
    | [] => none
    | c :: t =>
      if c = '"' then
        match parseStrBody t with
        | none => none
        | some (k, r) =>
          match skipWs r with
          | [] => none
          | c2 :: r2 =>
            if c2 = ':' then
              match parseVal fuel (skipWs r2) with
              | none => none
              | some (v, r3) =>
                match skipWs r3 with
                | [] => none
                | c3 :: r4 =>
                  if c3 = ',' then parseMembers fuel (skipWs r4) (alistUpdate acc k v)
                  else if c3 = '}' then some (alistUpdate acc k v, r4)
                  else none
            else none
      else none

end

/-- Python `json.loads`: parse one value surrounded by optional whitespace;
anything else (in particular trailing data) is a `JSONDecodeError`, returned
as `none`. -/
def pyJsonLoads (s : List Char) : Option JValue :=
  match parseVal (s.length + 1) (skipWs s) with
  | some (v, r) => if skipWs r = [] then some v else none
  | none => none

/-- Python truthiness of a modelled value. -/
def pyTruthy : JValue → Bool
  | .jnum i => i != 0
  | .jstr s => !s.isEmpty
  | .jarr l => !l.isEmpty
  | .jobj es => !es.isEmpty

/-- The check `self.__index == {}` of `_load_index`. -/
def isEmptyDict : JValue → Bool
  | .jobj [] => true
  | _ => false

/-- One line of text up to and including a newline (or to end of input). -/
def takeLine : List Char → List Char
  | [] => []
  | c :: t => if c = '\n' then ['\n'] else c :: takeLine t

/-- Python `f.seek(p); f.readline()`. -/
def pyReadLine (c : List Char) (p : Nat) : List Char := takeLine (c.drop p)

/-- Python `f.seek(p); f.write(s)` in update mode: overwrite in place,
extending the file as needed (a seek past the end produces a zero-filled
gap, as on POSIX). -/
def pyWrite (c : List Char) (p : Nat) (s : List Char) : List Char :=
  c.take p ++ List.replicate (p - c.length) (Char.ofNat 0) ++ s ++ c.drop (p + s.length)

/-- Python `f.seek(p); f.truncate()` (a position past the end zero-fills,
as POSIX `ftruncate` does). -/
def pyTruncateAt (c : List Char) (p : Nat) : List Char :=
  if p ≤ c.length then c.take p else c ++ List.replicate (p - c.length) (Char.ofNat 0)

/-- Python `f.seek(start); f.read(n)` where `n` may be negative (a negative
size reads to end of file, as `read` does). -/
def pyReadN (c : List Char) (start : Nat) (n : Int) : List Char :=
  let rest := c.drop start
  if n < 0 then rest else rest.take n.toNat

/-- The backward byte scan of `_load_index` (src lines 99-105): starting at
`j` and while the position exceeds 1, read one character; stop at the first
newline, else step back. `c.get? j = none` models `read(1) == ''` at or past
end of file. -/
def scanBack (c : List Char) : Nat → Nat
  | 0 => 0
  | 1 => 1
  | j+2 => if c.get? (j+2) = some '\n' then j + 2 else scanBack c (j+1)

/-- The exceptions the engine can raise. `closedDatabaseError` models
`jsondb.errors.ClosedDatabaseError` (the `jsondb.errors` module is not under
src/; the error kind is taken from the spec's ClosedDatabase taxonomy entry);
the others model the builtin Python exceptions of those names. -/
inductive PyError where
  | closedDatabaseError
  | jsonDecodeError
  | valueError
  | typeError
  | attributeError
  deriving DecidableEq

/-- State visible to the engine while the file handle is open: file content,
cursor position of the handle, and the in-memory index `self.__index`. -/
structure DbState where
  content : List Char
  pos : Nat
  index : JValue

/-- Model of `Jsondb._load_index` (src lines 84-131).  Faithful points: the
early `return` on `index_pointer_pos < 1` (line 108) does not restore the
cursor; the cached in-memory index suppresses the JSON read (line 117) but
not the truncation (line 124); `ValueError` (from `int` or from a negative
seek) and `JSONDecodeError` are swallowed (line 128); every other path
restores the entry cursor (line 131). -/
def load_index (st : DbState) (truncate force : Bool) : DbState :=
  let originalPos := st.pos
  let ipp := scanBack st.content st.content.length
  if ipp < 1 then
    -- early return: the cursor is wherever the scan left it (end of an
    -- empty file), not `originalPos`
    { st with pos := st.content.length }
  else
    match pyInt (st.content.drop ipp) with
    | none => { st with pos := originalPos }
    | some indexPos =>
      if isEmptyDict st.index || force then
        if indexPos < 0 then
          -- `seek(index_pos)` raises ValueError, swallowed
          { st with pos := originalPos }
        else
          match pyJsonLoads (pyReadN st.content indexPos.toNat ((ipp : Int) - indexPos)) with
          | none => { st with pos := originalPos }
          | some v =>
            if truncate then
              { content := pyTruncateAt st.content indexPos.toNat
                pos := originalPos, index := v }
            else { st with pos := originalPos, index := v }
      else
        if truncate then
          if indexPos < 0 then { st with pos := originalPos }
          else
            { st with content := pyTruncateAt st.content indexPos.toNat
                      pos := originalPos }
        else { st with pos := originalPos }

/-- The item loop of `Jsondb.add` (src lines 149-156): for each pair, record
the current cursor in the index, then write the one-key record and a
newline.  A non-dict index raises `AttributeError` at `.update`; a non-list
existing entry raises `TypeError` at the list concatenation. -/
def addLoop : List (List Char × JValue) → DbState → Except PyError Unit × DbState
  | [], st => (.ok (), st)
  | (k, v) :: rest, st =>
    match st.index with
    | .jobj entries =>
      match alistGetD entries k (.jarr []) with
      | .jarr l =>
        let entries' := alistUpdate entries k (.jarr (l ++ [.jnum (st.pos : Int)]))
        let record := dumps (.jobj [(k, v)]) ++ ['\n']
        addLoop rest
          { content := pyWrite st.content st.pos record
            pos := st.pos + record.length
            index := .jobj entries' }
      | _ => (.error .typeError, st)
    | _ => (.error .attributeError, st)

/-- Model of the body of `Jsondb.add` (src lines 134-161): load the index
with truncation, seek to `max(end - 1, 0)`, write the items, then write the
index line and the pointer line. -/
def add_core (st : DbState) (new_items : List (List Char × JValue)) :
    Except PyError Unit × DbState :=
  let st1 := load_index st true false
  let p2 := st1.content.length - 1
  match addLoop new_items { st1 with pos := p2 } with
  | (.ok _, st2) =>
    let indexPos := st2.pos
    let line := dumps st2.index ++ ['\n']
    let c3 := pyWrite st2.content st2.pos line
    let p3 := st2.pos + line.length
    let c4 := pyWrite c3 p3 (natRepr indexPos)
    (.ok (), { content := c4, pos := p3 + (natRepr indexPos).length, index := st2.index })
  | (.error e, st2) => (.error e, st2)

/-- The offset loop of `Jsondb.get_many` (src lines 183-185): seek to each
recorded offset, read one line, JSON-decode it and take all its values.  A
non-int offset raises `TypeError` at `seek`, a negative one `ValueError`;
an undecodable line raises `JSONDecodeError`; `.values()` on a non-dict
raises `AttributeError`.  None of these is caught. -/
def readOffsets (content : List Char) :
    List JValue → Nat → Except PyError (List JValue) × Nat
  | [], pos => (.ok [], pos)
  | x :: rest, pos =>
    match x with
    | .jnum o =>
      if o < 0 then (.error .valueError, pos)
      else
        let line := pyReadLine content o.toNat
        let pos1 := o.toNat + line.length
        match pyJsonLoads line with
        | none => (.error .jsonDecodeError, pos1)
        | some (.jobj entries) =>
          match readOffsets content rest pos1 with
          | (.ok vs, p') => (.ok (entries.map Prod.snd ++ vs), p')
          | (.error e, p') => (.error e, p')
        | some _ => (.error .attributeError, pos1)
    | _ => (.error .typeError, pos)

/-- The key loop of `Jsondb.get_many` (src lines 180-185): keys whose lookup
is falsy are skipped; an entry that is truthy but not a list raises
`TypeError` when iterated/seeked; a non-dict index raises `AttributeError`
at `.get`. -/
def getManyLoop (content : List Char) (idx : JValue) :
    List (List Char) → List (List Char × List JValue) → Nat →
    Except PyError (List (List Char × List JValue)) × Nat
  | [], res, pos => (.ok res, pos)
  | k :: ks, res, pos =>
    match idx with
    | .jobj es =>
      match alistGet es k with
      | none => getManyLoop content idx ks res pos
      | some tp =>
        if pyTruthy tp then
          match tp with
          | .jarr offs =>
            match readOffsets content offs pos with
            | (.ok vs, p') => getManyLoop content idx ks (alistUpdate res k vs) p'
            | (.error e, p') => (.error e, p')
          | _ => (.error .typeError, pos)
        else getManyLoop content idx ks res pos
    | _ => (.error .attributeError, pos)

/-- Model of the body of `Jsondb.get_many` (src lines 164-187): load the
index without truncation, then run the key loop. -/
def get_many_core (st : DbState) (keys : List (List Char)) :
    Except PyError (List (List Char × List JValue)) × DbState :=
  let st1 := load_index st false false
  match getManyLoop st1.content st1.index keys [] st1.pos with
  | (.ok res, p') => (.ok res, { st1 with pos := p' })
  | (.error e, p') => (.error e, { st1 with pos := p' })

/-- Model of the body of `Jsondb.get` (src lines 189-203):
`get_many([key])` then `res.get(key, [])`. -/
def get_core (st : DbState) (key : List Char) :
    Except PyError (List JValue) × DbState :=
  match get_many_core st [key] with
  | (.ok res, st') => (.ok (alistGetD res key []), st')
  | (.error e, st') => (.error e, st')

/-- A `Jsondb` instance: `fio` is `some cursor` while the handle is open and
`none` after `close()`; `content` is the backing file on disk; `index` is
`self.__index`. -/
structure Jsondb where
  fio : Option Nat
  content : List Char
  index : JValue

/-- The `requires_fio` guard (src lines 76-82) applied to `add`: with no
open handle it raises `ClosedDatabaseError` before touching anything. -/
def Jsondb.add (db : Jsondb) (new_items : List (List Char × JValue)) :
    Except PyError Unit × Jsondb :=
  match db.fio with
  | none => (.error .closedDatabaseError, db)
  | some p =>
    let r := add_core ⟨db.content, p, db.index⟩ new_items
    (r.1, ⟨some r.2.pos, r.2.content, r.2.index⟩)

/-- The `requires_fio` guard applied to `get_many`. -/
def Jsondb.get_many (db : Jsondb) (keys : List (List Char)) :
    Except PyError (List (List Char × List JValue)) × Jsondb :=
  match db.fio with
  | none => (.error .closedDatabaseError, db)
  | some p =>
    let r := get_many_core ⟨db.content, p, db.index⟩ keys
    (r.1, ⟨some r.2.pos, r.2.content, r.2.index⟩)

/-- The `requires_fio` guard applied to `get`. -/
def Jsondb.get (db : Jsondb) (key : List Char) :
    Except PyError (List JValue) × Jsondb :=
  match db.fio with
  | none => (.error .closedDatabaseError, db)
  | some p =>
    let r := get_core ⟨db.content, p, db.index⟩ key
    (r.1, ⟨some r.2.pos, r.2.content, r.2.index⟩)

/-- Python `Jsondb.close` (src lines 67-74): reset the index and drop the
handle. -/
def Jsondb.close (db : Jsondb) : Jsondb :=
  ⟨none, db.content, .jobj []⟩

/-- A freshly constructed instance on a new (empty, just-touched) file:
open handle at position 0, empty in-memory index. -/
def freshDb : Jsondb := ⟨some 0, [], .jobj []⟩

/-- Spec-side characterization (for the amended claim C8) of the file
content left by `load_index` with truncation requested: written from the
spec's description of steps 4-6 plus the cache behaviour the code actually
has. -/
def truncateOutcome (c : List Char) (idx : JValue) : List Char :=
  let ipp := scanBack c c.length
  if ipp < 1 then c
  else
    match pyInt (c.drop ipp) with
    | none => c
    | some indexPos =>
      if indexPos < 0 then c
      else if isEmptyDict idx then
        match pyJsonLoads (pyReadN c indexPos.toNat ((ipp : Int) - indexPos)) with
        | none => c
        | some _ => pyTruncateAt c indexPos.toNat
      else pyTruncateAt c indexPos.toNat

/-! ## Decimal representation and `int()` parsing -/

theorem digitChar_isDigit (m : Nat) (h : m < 10) :
    (Char.ofNat (48 + m)).isDigit = true := by
  interval_cases m <;> decide

theorem digitVal_digitChar (m : Nat) (h : m < 10) :
    digitVal (Char.ofNat (48 + m)) = m := by
  interval_cases m <;> decide

theorem digitsToNat_append_single (ds : List Char) (c : Char) :
    digitsToNat (ds ++ [c]) = 10 * digitsToNat ds + digitVal c := by
  simp [digitsToNat, List.foldl_append, Nat.mul_comm]

theorem natReprAux_spec (fuel : Nat) : ∀ n : Nat, n < fuel →
    (natReprAux fuel n).all Char.isDigit = true ∧ natReprAux fuel n ≠ [] ∧
      digitsToNat (natReprAux fuel n) = n := by
  induction fuel with
  | zero => intro n h; omega
  | succ f ih =>
    intro n h
    by_cases hn : n < 10
    · refine ⟨?_, ?_, ?_⟩ <;> simp only [natReprAux, if_pos hn]
      · simp [List.all_eq_true, digitChar_isDigit n hn]
      · simp
      · simpa [digitsToNat] using digitVal_digitChar n hn
    · have hd : n / 10 < f := by
        have h1 : n / 10 < n := Nat.div_lt_self (by omega) (by omega)
        omega
      obtain ⟨ha, hne, hv⟩ := ih (n / 10) hd
      have hm : n % 10 < 10 := Nat.mod_lt _ (by omega)
      refine ⟨?_, ?_, ?_⟩ <;> simp only [natReprAux, if_neg hn]
      · rw [List.all_append]
        simp [ha, List.all_eq_true, digitChar_isDigit _ hm]
      · simp
      · rw [digitsToNat_append_single, hv, show '0'.toNat = 48 from rfl,
          digitVal_digitChar _ hm]
        omega

theorem natRepr_all_digit (n : Nat) : (natRepr n).all Char.isDigit = true :=
  (natReprAux_spec (n+1) n (Nat.lt_succ_self n)).1

theorem natRepr_ne_nil (n : Nat) : natRepr n ≠ [] :=
  (natReprAux_spec (n+1) n (Nat.lt_succ_self n)).2.1

theorem digitsToNat_natRepr (n : Nat) : digitsToNat (natRepr n) = n :=
  (natReprAux_spec (n+1) n (Nat.lt_succ_self n)).2.2

theorem isPyWs_of_digit (c : Char) (h : c.isDigit = true) : isPyWs c = false := by
  simp only [isPyWs, Bool.or_eq_false_iff, decide_eq_false_iff_not]
  refine ⟨⟨⟨⟨⟨?_, ?_⟩, ?_⟩, ?_⟩, ?_⟩, ?_⟩ <;> rintro rfl <;> exact absurd h (by decide)

theorem dropWhile_eq_self_of_all {p : Char → Bool} (l : List Char)
    (h : ∀ c ∈ l, p c = false) : l.dropWhile p = l := by
  cases l with
  | nil => rfl
  | cons c t => simp [List.dropWhile, h c (by simp)]

theorem pyStrip_of_all_not_ws (l : List Char) (h : ∀ c ∈ l, isPyWs c = false) :
    pyStrip l = l := by
  unfold pyStrip
  rw [dropWhile_eq_self_of_all l h,
    dropWhile_eq_self_of_all l.reverse (fun c hc => h c (List.mem_reverse.mp hc)),
    List.reverse_reverse]

theorem pyStrip_digits (ds : List Char) (h : ds.all Char.isDigit = true) :
    pyStrip ds = ds :=
  pyStrip_of_all_not_ws ds fun c hc =>
    isPyWs_of_digit c (List.all_eq_true.mp h c hc)

theorem pyStrip_newline_digits (ds : List Char) (h : ds.all Char.isDigit = true) :
    pyStrip ('\n' :: ds) = ds := by
  have hall : ∀ c ∈ ds, isPyWs c = false := fun c hc =>
    isPyWs_of_digit c (List.all_eq_true.mp h c hc)
  unfold pyStrip
  rw [show List.dropWhile isPyWs ('\n' :: ds) = List.dropWhile isPyWs ds by
        simp [List.dropWhile, isPyWs],
    dropWhile_eq_self_of_all ds hall,
    dropWhile_eq_self_of_all ds.reverse (fun c hc => hall c (List.mem_reverse.mp hc)),
    List.reverse_reverse]

theorem pyIntParse_digits (ds : List Char) (hne : ds ≠ [])
    (h : ds.all Char.isDigit = true) :
    pyIntParse ds = some (digitsToNat ds : Int) := by
  cases ds with
  | nil => exact absurd rfl hne
  | cons d t =>
    have hd : d.isDigit = true := (List.all_eq_true.mp h d (by simp))
    have h1 : d ≠ '-' := by rintro rfl; exact absurd hd (by decide)
    have h2 : d ≠ '+' := by rintro rfl; exact absurd hd (by decide)
    simp only [pyIntParse, if_neg h1, if_neg h2, parseDigits, if_neg (by simp : ¬d :: t = [])]
    rw [if_pos h]
    rfl

theorem pyInt_natRepr (n : Nat) : pyInt (natRepr n) = some (n : Int) := by
  unfold pyInt
  rw [pyStrip_digits _ (natRepr_all_digit n),
    pyIntParse_digits _ (natRepr_ne_nil n) (natRepr_all_digit n),
    digitsToNat_natRepr]

theorem pyInt_newline_natRepr (n : Nat) :
    pyInt ('\n' :: natRepr n) = some (n : Int) := by
  unfold pyInt
  rw [pyStrip_newline_digits _ (natRepr_all_digit n),
    pyIntParse_digits _ (natRepr_ne_nil n) (natRepr_all_digit n),
    digitsToNat_natRepr]


/-! ## String escaping and printer structure -/

theorem no_newline_cons (c : Char) (t : List Char) (hc : c ≠ '\n') (ht : '\n' ∉ t) :
    '\n' ∉ c :: t := by
  intro h
  rcases List.mem_cons.mp h with h | h
  · exact hc h.symm
  · exact ht h

theorem no_newline_append (a b : List Char) (ha : '\n' ∉ a) (hb : '\n' ∉ b) :
    '\n' ∉ a ++ b := by
  intro h
  rcases List.mem_append.mp h with h | h
  · exact ha h
  · exact hb h

theorem parseStrBody_escape (s : List Char) : ∀ rest : List Char,
    parseStrBody (escapeStr s ++ '"' :: rest) = some (s, rest) := by
  induction s with
  | nil => intro rest; simp [escapeStr, parseStrBody]
  | cons c t ih =>
    intro rest
    by_cases h1 : c = '"'
    · subst h1; simp [escapeStr, escapeChar, parseStrBody, parseStrEsc, unescapeChar, ih]
    · by_cases h2 : c = '\\'
      · subst h2; simp [escapeStr, escapeChar, parseStrBody, parseStrEsc, unescapeChar, ih]
      · by_cases h3 : c = '\n'
        · subst h3; simp [escapeStr, escapeChar, parseStrBody, parseStrEsc, unescapeChar, ih]
        · by_cases h4 : c = '\r'
          · subst h4
            simp [escapeStr, escapeChar, parseStrBody, parseStrEsc, unescapeChar, ih]
          · by_cases h5 : c = '\t'
            · subst h5
              simp [escapeStr, escapeChar, parseStrBody, parseStrEsc, unescapeChar, ih]
            · simp [escapeStr, escapeChar, parseStrBody, h1, h2, h3, h4, h5, ih]

theorem escapeChar_no_newline (c : Char) : '\n' ∉ escapeChar c := by
  unfold escapeChar
  split
  · decide
  · split
    · decide
    · split
      · decide
      · split
        · decide
        · split
          · decide
          · rename_i h1 h2 h3 h4 h5
            exact no_newline_cons c [] h3 (by simp)

theorem escapeStr_no_newline (s : List Char) : '\n' ∉ escapeStr s := by
  induction s with
  | nil => simp [escapeStr]
  | cons c t ih =>
    simp only [escapeStr]
    exact no_newline_append _ _ (escapeChar_no_newline c) ih

theorem isJsonWs_of_digit (c : Char) (h : c.isDigit = true) : isJsonWs c = false := by
  simp only [isJsonWs, Bool.or_eq_false_iff, decide_eq_false_iff_not]
  refine ⟨⟨⟨?_, ?_⟩, ?_⟩, ?_⟩ <;> rintro rfl <;> exact absurd h (by decide)

theorem natRepr_no_newline (n : Nat) : '\n' ∉ natRepr n := by
  intro h
  have := List.all_eq_true.mp (natRepr_all_digit n) _ h
  exact absurd this (by decide)

theorem dumpsInt_ne_nil (i : Int) : dumpsInt i ≠ [] := by
  unfold dumpsInt
  split
  · simp
  · exact natRepr_ne_nil _

theorem dumpsInt_no_newline (i : Int) : '\n' ∉ dumpsInt i := by
  unfold dumpsInt
  split
  · exact no_newline_cons _ _ (by decide) (natRepr_no_newline _)
  · exact natRepr_no_newline _

mutual

theorem dumps_no_newline : ∀ v : JValue, '\n' ∉ dumps v
  | .jnum i => dumpsInt_no_newline i
  | .jstr s => by
    simp only [dumps]
    exact no_newline_cons _ _ (by decide)
      (no_newline_append _ _ (escapeStr_no_newline s) (by decide))
  | .jarr l => by
    simp only [dumps]
    exact no_newline_cons _ _ (by decide)
      (no_newline_append _ _ (dumpsElems_no_newline l) (by decide))
  | .jobj es => by
    simp only [dumps]
    exact no_newline_cons _ _ (by decide)
      (no_newline_append _ _ (dumpsMembers_no_newline es) (by decide))

theorem dumpsElems_no_newline : ∀ l : List JValue, '\n' ∉ dumpsElems l
  | [] => by simp [dumpsElems]
  | [v] => by simpa only [dumpsElems] using dumps_no_newline v
  | v :: w :: rest => by
    simp only [dumpsElems]
    exact no_newline_append _ _ (dumps_no_newline v)
      (no_newline_cons _ _ (by decide)
        (no_newline_cons _ _ (by decide) (dumpsElems_no_newline (w :: rest))))

theorem dumpsMembers_no_newline : ∀ es : List (List Char × JValue), '\n' ∉ dumpsMembers es
  | [] => by simp [dumpsMembers]
  | [(k, v)] => by
    simp only [dumpsMembers]
    exact no_newline_cons _ _ (by decide)
      (no_newline_append _ _ (escapeStr_no_newline k)
        (no_newline_cons _ _ (by decide)
          (no_newline_cons _ _ (by decide)
            (no_newline_cons _ _ (by decide) (dumps_no_newline v)))))
  | (k, v) :: m :: rest => by
    simp only [dumpsMembers, List.cons_append, List.append_assoc, List.nil_append]
    exact no_newline_cons _ _ (by decide)
      (no_newline_append _ _ (escapeStr_no_newline k)
        (no_newline_cons _ _ (by decide)
          (no_newline_cons _ _ (by decide)
            (no_newline_cons _ _ (by decide)
              (no_newline_append _ _ (dumps_no_newline v)
                (no_newline_cons _ _ (by decide)
                  (no_newline_cons _ _ (by decide)
                    (dumpsMembers_no_newline (m :: rest)))))))))

end

/-! ## Head shapes of printed values and fuel bounds -/

theorem skipWs_cons_of_not_ws (c : Char) (t : List Char) (h : isJsonWs c = false) :
    skipWs (c :: t) = c :: t := by
  simp [skipWs, h]

theorem natRepr_head_digit (n : Nat) :
    ∃ c t, natRepr n = c :: t ∧ c.isDigit = true := by
  obtain ⟨c, t, h⟩ := List.exists_cons_of_ne_nil (natRepr_ne_nil n)
  refine ⟨c, t, h, ?_⟩
  exact List.all_eq_true.mp (natRepr_all_digit n) c (by rw [h]; simp)

theorem dumps_head_shape (v : JValue) : ∃ c t, dumps v = c :: t ∧
    (c = '"' ∨ c = '[' ∨ c = '{' ∨ c = '-' ∨ c.isDigit = true) := by
  cases v with
  | jnum i =>
    unfold dumps dumpsInt
    split
    · exact ⟨'-', _, rfl, by simp⟩
    · obtain ⟨c, t, h, hd⟩ := natRepr_head_digit i.toNat
      exact ⟨c, t, h, by simp [hd]⟩
  | jstr s => exact ⟨'"', escapeStr s ++ ['"'], rfl, by simp⟩
  | jarr l => exact ⟨'[', dumpsElems l ++ [']'], rfl, by simp⟩
  | jobj es => exact ⟨'{', dumpsMembers es ++ ['}'], rfl, by simp⟩

theorem dumps_head_facts (v : JValue) : ∃ c t, dumps v = c :: t ∧
    isJsonWs c = false ∧ c ≠ ']' ∧ c ≠ '}' ∧ c ≠ ',' := by
  obtain ⟨c, t, h, hc⟩ := dumps_head_shape v
  refine ⟨c, t, h, ?_, ?_, ?_, ?_⟩
  · rcases hc with rfl | rfl | rfl | rfl | hd
    · decide
    · decide
    · decide
    · decide
    · exact isJsonWs_of_digit c hd
  all_goals
    rcases hc with rfl | rfl | rfl | rfl | hd
    · decide
    · decide
    · decide
    · decide
    · rintro rfl; exact absurd hd (by decide)

theorem skipWs_dumps_append (v : JValue) (rest : List Char) :
    skipWs (dumps v ++ rest) = dumps v ++ rest := by
  obtain ⟨c, t, h, hws, _, _, _⟩ := dumps_head_facts v
  rw [h, List.cons_append, skipWs_cons_of_not_ws c _ hws]

theorem skipWs_space (t : List Char) : skipWs (' ' :: t) = skipWs t := rfl

theorem dumpsElems_cons_decomp (v : JValue) (t : List JValue) :
    ∃ X, dumpsElems (v :: t) = dumps v ++ X := by
  cases t with
  | nil => exact ⟨[], by simp [dumpsElems]⟩
  | cons w r => exact ⟨',' :: ' ' :: dumpsElems (w :: r), rfl⟩

theorem dumpsMembers_cons_head (m : List Char × JValue) (t : List (List Char × JValue)) :
    ∃ X, dumpsMembers (m :: t) = '"' :: X := by
  obtain ⟨k, v⟩ := m
  cases t with
  | nil => exact ⟨escapeStr k ++ '"' :: ':' :: ' ' :: dumps v, rfl⟩
  | cons m' r =>
    exact ⟨escapeStr k ++ '"' :: ':' :: ' ' :: dumps v ++
      ',' :: ' ' :: dumpsMembers (m' :: r), rfl⟩

theorem dumpsInt_length_pos (i : Int) : 1 ≤ (dumpsInt i).length :=
  List.length_pos.mpr (dumpsInt_ne_nil i)

mutual

theorem jsize_le_dumps : ∀ v : JValue, jsize v ≤ (dumps v).length
  | .jnum i => by simpa [jsize, dumps] using dumpsInt_length_pos i
  | .jstr s => by simp [jsize, dumps]
  | .jarr [] => by simp [jsize, dumps, dumpsElems]
  | .jarr (v :: t) => by
    have h := jsizeElems_le_dumps (v :: t)
    simp only [jsize, dumps, List.length_cons, List.length_append]
    omega
  | .jobj [] => by simp [jsize, dumps, dumpsMembers]
  | .jobj (m :: t) => by
    have h := jsizeMembers_le_dumps (m :: t)
    simp only [jsize, dumps, List.length_cons, List.length_append]
    omega

theorem jsizeElems_le_dumps : ∀ l : List JValue,
    jsizeElems l ≤ (dumpsElems l).length + 1
  | [] => by simp [jsizeElems, dumpsElems]
  | [v] => by
    have h := jsize_le_dumps v
    simp only [jsizeElems, dumpsElems]
    omega
  | v :: w :: rest => by
    have h1 := jsize_le_dumps v
    have h2 := jsizeElems_le_dumps (w :: rest)
    simp only [jsizeElems, dumpsElems, List.length_append, List.length_cons]
    omega

theorem jsizeMembers_le_dumps : ∀ es : List (List Char × JValue),
    jsizeMembers es ≤ (dumpsMembers es).length + 1
  | [] => by simp [jsizeMembers, dumpsMembers]
  | [(k, v)] => by
    have h := jsize_le_dumps v
    simp only [jsizeMembers, dumpsMembers, List.length_append, List.length_cons]
    omega
  | (k, v) :: m :: rest => by
    have h1 := jsize_le_dumps v
    have h2 := jsizeMembers_le_dumps (m :: rest)
    simp only [jsizeMembers, dumpsMembers, List.length_append, List.length_cons]
    omega

end

theorem takeDigits_append (ds : List Char) (rest : List Char)
    (hds : ds.all Char.isDigit = true)
    (hrest : ∀ d t', rest = d :: t' → d.isDigit = false) :
    takeDigits (ds ++ rest) = (ds, rest) := by
  induction ds with
  | nil =>
    cases rest with
    | nil => simp [takeDigits]
    | cons d t' => simp [takeDigits, hrest d t' rfl]
  | cons c cs ih =>
    have hc : c.isDigit = true := List.all_eq_true.mp hds c (by simp)
    have hcs : cs.all Char.isDigit = true := by
      rw [List.all_eq_true] at hds ⊢
      exact fun x hx => hds x (by simp [hx])
    simp [takeDigits, hc, ih hcs]

/-! ## Parser-printer roundtrip -/

theorem digit_ne_marks (c : Char) (h : c.isDigit = true) :
    c ≠ '"' ∧ c ≠ '[' ∧ c ≠ '{' ∧ c ≠ '-' ∧ c ≠ '+' := by
  refine ⟨?_, ?_, ?_, ?_, ?_⟩ <;> rintro rfl <;> exact absurd h (by decide)

theorem parseIntTok_digits_append (ds rest : List Char) (hne : ds ≠ [])
    (hds : ds.all Char.isDigit = true)
    (hrest : ∀ d t', rest = d :: t' → d.isDigit = false) :
    parseIntTok (ds ++ rest) = some ((digitsToNat ds : Int), rest) := by
  obtain ⟨d, t, rfl⟩ := List.exists_cons_of_ne_nil hne
  have hd : d.isDigit = true := List.all_eq_true.mp hds d (by simp)
  obtain ⟨_, _, _, h1, h2⟩ := digit_ne_marks d hd
  rw [List.cons_append]
  simp only [parseIntTok, if_neg h1, if_neg h2]
  rw [show d :: (t ++ rest) = (d :: t) ++ rest from rfl,
    takeDigits_append _ _ hds hrest]

theorem parseIntTok_neg_digits_append (ds rest : List Char) (hne : ds ≠ [])
    (hds : ds.all Char.isDigit = true)
    (hrest : ∀ d t', rest = d :: t' → d.isDigit = false) :
    parseIntTok (('-' :: ds) ++ rest) = some (-(digitsToNat ds : Int), rest) := by
  obtain ⟨d, t, rfl⟩ := List.exists_cons_of_ne_nil hne
  rw [List.cons_append]
  simp only [parseIntTok, if_pos rfl]
  rw [show d :: t ++ rest = (d :: t) ++ rest from rfl,
    takeDigits_append _ _ hds hrest]
  rfl

theorem parseIntTok_dumpsInt (i : Int) (rest : List Char)
    (hrest : ∀ d t', rest = d :: t' → d.isDigit = false) :
    parseIntTok (dumpsInt i ++ rest) = some (i, rest) := by
  unfold dumpsInt
  split
  · rename_i hneg
    rw [show ('-' :: natRepr i.natAbs) ++ rest = ('-' :: natRepr i.natAbs) ++ rest from rfl,
      parseIntTok_neg_digits_append _ _ (natRepr_ne_nil _) (natRepr_all_digit _) hrest,
      digitsToNat_natRepr]
    have : -((i.natAbs : Nat) : Int) = i := by omega
    rw [this]
  · rename_i hpos
    rw [parseIntTok_digits_append _ _ (natRepr_ne_nil _) (natRepr_all_digit _) hrest,
      digitsToNat_natRepr]
    have : ((i.toNat : Nat) : Int) = i := by omega
    rw [this]

theorem jsize_pos (v : JValue) : 1 ≤ jsize v := by
  cases v with
  | jnum i => simp [jsize]
  | jstr s => simp [jsize]
  | jarr l => cases l <;> simp [jsize]
  | jobj es => cases es <;> simp [jsize]

theorem jsizeElems_pos (l : List JValue) : 1 ≤ jsizeElems l := by
  cases l with
  | nil => simp [jsizeElems]
  | cons v t =>
    cases t with
    | nil => simp [jsizeElems]
    | cons w r => simp only [jsizeElems]; omega

theorem jsizeMembers_pos (es : List (List Char × JValue)) : 1 ≤ jsizeMembers es := by
  cases es with
  | nil => simp [jsizeMembers]
  | cons m t =>
    obtain ⟨k, v⟩ := m
    cases t with
    | nil => simp [jsizeMembers]
    | cons m' r => simp only [jsizeMembers]; omega

theorem dumpsInt_head (i : Int) :
    ∃ c t, dumpsInt i = c :: t ∧ (c = '-' ∨ c.isDigit = true) := by
  unfold dumpsInt
  split
  · exact ⟨'-', _, rfl, Or.inl rfl⟩
  · obtain ⟨c, t, h, hd⟩ := natRepr_head_digit i.toNat
    exact ⟨c, t, h, Or.inr hd⟩

theorem noDigit_head_lit (c : Char) (hc : c.isDigit = false) (t : List Char) :
    ∀ d t', c :: t = d :: t' → d.isDigit = false := by
  intro d t' h
  injection h with h1 _
  rw [← h1]
  exact hc

theorem parseVal_bracket (f : Nat) (t : List Char) :
    parseVal (f+1) ('[' :: t) =
      match skipWs t with
      | [] => none
      | c2 :: r =>
        if c2 = ']' then some (JValue.jarr [], r)
        else (parseElems f (c2 :: r)).map (fun p => (JValue.jarr p.1, p.2)) := rfl

theorem parseVal_brace (f : Nat) (t : List Char) :
    parseVal (f+1) ('{' :: t) =
      match skipWs t with
      | [] => none
      | c2 :: r =>
        if c2 = '}' then some (JValue.jobj [], r)
        else (parseMembers f (c2 :: r) []).map (fun p => (JValue.jobj p.1, p.2)) := rfl

theorem parseVal_bracket_cons (f : Nat) (t : List Char) (c2 : Char) (r : List Char)
    (h : skipWs t = c2 :: r) :
    parseVal (f+1) ('[' :: t) =
      if c2 = ']' then some (JValue.jarr [], r)
      else (parseElems f (c2 :: r)).map (fun p => (JValue.jarr p.1, p.2)) := by
  rw [parseVal_bracket, h]

theorem parseVal_brace_cons (f : Nat) (t : List Char) (c2 : Char) (r : List Char)
    (h : skipWs t = c2 :: r) :
    parseVal (f+1) ('{' :: t) =
      if c2 = '}' then some (JValue.jobj [], r)
      else (parseMembers f (c2 :: r) []).map (fun p => (JValue.jobj p.1, p.2)) := by
  rw [parseVal_brace, h]

theorem wfElems_cons (v : JValue) (t : List JValue) (h : wfElems (v :: t) = true) :
    v.wf = true ∧ wfElems t = true := by
  simpa [wfElems, Bool.and_eq_true] using h

theorem wfMembers_cons (k : List Char) (v : JValue) (t : List (List Char × JValue))
    (h : wfMembers ((k, v) :: t) = true) :
    (t.map Prod.fst).contains k = false ∧ v.wf = true ∧ wfMembers t = true := by
  have := h
  simp only [wfMembers, Bool.and_eq_true, Bool.not_eq_true'] at this
  exact ⟨this.1.1, this.1.2, this.2⟩

theorem contains_eq_false_iff (l : List (List Char)) (k : List Char) :
    l.contains k = false ↔ k ∉ l := by
  rw [← List.elem_iff (a := k)]
  simp [Bool.not_eq_true]

theorem alistUpdate_not_mem {β : Type} (l : List (List Char × β)) (k : List Char)
    (v : β) (h : k ∉ l.map Prod.fst) :
    alistUpdate l k v = l ++ [(k, v)] := by
  induction l with
  | nil => simp [alistUpdate]
  | cons p rest ih =>
    obtain ⟨k', v'⟩ := p
    simp only [List.map_cons, List.mem_cons, not_or] at h
    have hk : k' ≠ k := fun hkk => h.1 hkk.symm
    simp [alistUpdate, hk, ih h.2]

theorem foldl_alistUpdate (es : List (List Char × JValue)) :
    ∀ acc : List (List Char × JValue), wfMembers es = true →
    (∀ k ∈ es.map Prod.fst, k ∉ acc.map Prod.fst) →
    es.foldl (fun a p => alistUpdate a p.1 p.2) acc = acc ++ es := by
  induction es with
  | nil => intro acc _ _; simp
  | cons p rest ih =>
    intro acc hwf hdisj
    obtain ⟨k, v⟩ := p
    obtain ⟨hk, _, hwfr⟩ := wfMembers_cons k v rest hwf
    have hkmem : k ∉ rest.map Prod.fst := (contains_eq_false_iff _ _).mp hk
    have hstep : alistUpdate acc k v = acc ++ [(k, v)] :=
      alistUpdate_not_mem acc k v
        (hdisj k (List.mem_map_of_mem Prod.fst (List.mem_cons_self _ _)))
    have hdisj' : ∀ k' ∈ rest.map Prod.fst, k' ∉ (acc ++ [(k, v)]).map Prod.fst := by
      intro k' hk'
      simp only [List.map_append, List.map_cons, List.map_nil, List.mem_append,
        List.mem_cons, List.not_mem_nil, not_or]
      refine ⟨hdisj k' (List.mem_cons_of_mem _ hk'), ?_, fun h => h⟩
      intro hkk
      subst hkk
      exact hkmem hk'
    simp only [List.foldl_cons, hstep]
    rw [ih (acc ++ [(k, v)]) hwfr hdisj']
    simp

theorem foldl_alistUpdate_nil (es : List (List Char × JValue))
    (h : wfMembers es = true) :
    es.foldl (fun a p => alistUpdate a p.1 p.2) [] = es := by
  have := foldl_alistUpdate es [] h (by intro k _; simp)
  simpa using this

mutual

theorem parseVal_dumps : ∀ (v : JValue) (fuel : Nat) (rest : List Char),
    v.wf = true → jsize v ≤ fuel →
    (∀ d t', rest = d :: t' → d.isDigit = false) →
    parseVal fuel (dumps v ++ rest) = some (v, rest)
  | .jnum i, fuel, rest => by
    intro hwf hfuel hrest
    cases fuel with
    | zero => exact absurd hfuel (by simp [jsize])
    | succ f =>
      obtain ⟨c, t, hct, hc⟩ := dumpsInt_head i
      have h1 : c ≠ '"' := by
        rcases hc with rfl | hd
        · decide
        · exact (digit_ne_marks c hd).1
      have h2 : c ≠ '[' := by
        rcases hc with rfl | hd
        · decide
        · exact (digit_ne_marks c hd).2.1
      have h3 : c ≠ '{' := by
        rcases hc with rfl | hd
        · decide
        · exact (digit_ne_marks c hd).2.2.1
      have hdn : dumps (JValue.jnum i) = dumpsInt i := rfl
      rw [hdn, hct, List.cons_append]
      simp only [parseVal, if_neg h1, if_neg h2, if_neg h3]
      rw [show c :: (t ++ rest) = (c :: t) ++ rest from rfl, ← hct,
        parseIntTok_dumpsInt i rest hrest]
      rfl
  | .jstr s, fuel, rest => by
    intro hwf hfuel hrest
    cases fuel with
    | zero => exact absurd hfuel (by simp [jsize])
    | succ f =>
      have hd : dumps (JValue.jstr s) ++ rest = '"' :: (escapeStr s ++ '"' :: rest) := by
        simp [dumps]
      rw [hd]
      simp only [parseVal, if_pos rfl]
      rw [parseStrBody_escape s rest]
      rfl
  | .jarr [], fuel, rest => by
    intro hwf hfuel hrest
    cases fuel with
    | zero => exact absurd hfuel (by simp [jsize])
    | succ f =>
      have hd : dumps (JValue.jarr []) ++ rest = '[' :: (']' :: rest) := by
        simp [dumps, dumpsElems]
      rw [hd, parseVal_bracket_cons f _ ']' rest
        (skipWs_cons_of_not_ws ']' rest (by decide)), if_pos rfl]
  | .jarr (v :: t), fuel, rest => by
    intro hwf hfuel hrest
    cases fuel with
    | zero =>
      have := jsize_pos (JValue.jarr (v :: t))
      omega
    | succ f =>
      have hwfe : wfElems (v :: t) = true := by simpa [JValue.wf] using hwf
      have hfe : jsizeElems (v :: t) ≤ f := by
        simp only [jsize] at hfuel
        omega
      obtain ⟨X, hX⟩ := dumpsElems_cons_decomp v t
      obtain ⟨c, tl, hct, hws, hrb, hcb, hcm⟩ := dumps_head_facts v
      have hd : dumps (JValue.jarr (v :: t)) ++ rest =
          '[' :: (dumpsElems (v :: t) ++ ']' :: rest) := by
        simp [dumps]
      have hscrut : dumpsElems (v :: t) ++ ']' :: rest =
          c :: (tl ++ (X ++ ']' :: rest)) := by
        rw [hX, hct]
        simp [List.append_assoc]
      have hsk : skipWs (dumpsElems (v :: t) ++ ']' :: rest) =
          c :: (tl ++ (X ++ ']' :: rest)) := by
        rw [hscrut, skipWs_cons_of_not_ws c _ hws]
      rw [hd, parseVal_bracket_cons f _ c _ hsk, if_neg hrb, ← hscrut,
        parseElems_dumps (v :: t) f rest (by simp) hwfe hfe]
      rfl
  | .jobj [], fuel, rest => by
    intro hwf hfuel hrest
    cases fuel with
    | zero => exact absurd hfuel (by simp [jsize])
    | succ f =>
      have hd : dumps (JValue.jobj []) ++ rest = '{' :: ('}' :: rest) := by
        simp [dumps, dumpsMembers]
      rw [hd, parseVal_brace_cons f _ '}' rest
        (skipWs_cons_of_not_ws '}' rest (by decide)), if_pos rfl]
  | .jobj (m :: t), fuel, rest => by
    intro hwf hfuel hrest
    cases fuel with
    | zero =>
      have := jsize_pos (JValue.jobj (m :: t))
      omega
    | succ f =>
      have hwfm : wfMembers (m :: t) = true := by simpa [JValue.wf] using hwf
      have hfm : jsizeMembers (m :: t) ≤ f := by
        simp only [jsize] at hfuel
        omega
      obtain ⟨X, hX⟩ := dumpsMembers_cons_head m t
      have hd : dumps (JValue.jobj (m :: t)) ++ rest =
          '{' :: (dumpsMembers (m :: t) ++ '}' :: rest) := by
        simp [dumps]
      have hscrut : dumpsMembers (m :: t) ++ '}' :: rest =
          '"' :: (X ++ '}' :: rest) := by
        rw [hX]
        simp [List.append_assoc]
      have hsk : skipWs (dumpsMembers (m :: t) ++ '}' :: rest) =
          '"' :: (X ++ '}' :: rest) := by
        rw [hscrut, skipWs_cons_of_not_ws '"' _ (by decide)]
      rw [hd, parseVal_brace_cons f _ '"' _ hsk, if_neg (by decide), ← hscrut,
        parseMembers_dumps (m :: t) f rest [] (by simp) hwfm hfm]
      have hfold : (m :: t).foldl (fun a p => alistUpdate a p.1 p.2) [] = m :: t :=
        foldl_alistUpdate_nil (m :: t) hwfm
      rw [hfold]
      rfl

theorem parseElems_dumps : ∀ (l : List JValue) (fuel : Nat) (rest : List Char),
    l ≠ [] → wfElems l = true → jsizeElems l ≤ fuel →
    parseElems fuel (dumpsElems l ++ ']' :: rest) = some (l, rest)
  | [], _, _ => by intro hne _ _; exact absurd rfl hne
  | [v], fuel, rest => by
    intro _ hwf hfuel
    cases fuel with
    | zero =>
      have := jsizeElems_pos [v]
      omega
    | succ f =>
      obtain ⟨hwfv, _⟩ := wfElems_cons v [] hwf
      have hfv : jsize v ≤ f := by
        simp only [jsizeElems] at hfuel
        omega
      have hpv := parseVal_dumps v f (']' :: rest) hwfv hfv
        (noDigit_head_lit ']' (by decide) rest)
      have hd : dumpsElems [v] ++ ']' :: rest = dumps v ++ ']' :: rest := by
        simp [dumpsElems]
      rw [hd]
      simp only [parseElems, hpv]
      rw [skipWs_cons_of_not_ws ']' rest (by decide)]
      rfl
  | v :: w :: r, fuel, rest => by
    intro _ hwf hfuel
    cases fuel with
    | zero =>
      have := jsizeElems_pos (v :: w :: r)
      omega
    | succ f =>
      obtain ⟨hwfv, hwfr⟩ := wfElems_cons v (w :: r) hwf
      have hfv : jsize v ≤ f := by
        have := jsizeElems_pos (w :: r)
        simp only [jsizeElems] at hfuel
        omega
      have hfr : jsizeElems (w :: r) ≤ f := by
        have := jsize_pos v
        simp only [jsizeElems] at hfuel
        omega
      have hd : dumpsElems (v :: w :: r) ++ ']' :: rest =
          dumps v ++ (',' :: ' ' :: (dumpsElems (w :: r) ++ ']' :: rest)) := by
        simp [dumpsElems]
      have hpv := parseVal_dumps v f
        (',' :: ' ' :: (dumpsElems (w :: r) ++ ']' :: rest)) hwfv hfv
        (noDigit_head_lit ',' (by decide) _)
      obtain ⟨X2, hX2⟩ := dumpsElems_cons_decomp w r
      obtain ⟨c2, tl2, hct2, hws2, _, _, _⟩ := dumps_head_facts w
      have hsk2 : skipWs (' ' :: (dumpsElems (w :: r) ++ ']' :: rest)) =
          dumpsElems (w :: r) ++ ']' :: rest := by
        rw [skipWs_space, hX2, List.append_assoc, skipWs_dumps_append, ← List.append_assoc]
      rw [hd]
      simp only [parseElems, hpv]
      rw [skipWs_cons_of_not_ws ',' _ (by decide)]
      simp only [if_pos rfl]
      rw [hsk2, parseElems_dumps (w :: r) f rest (by simp) hwfr hfr]
      rfl

theorem parseMembers_dumps : ∀ (es : List (List Char × JValue)) (fuel : Nat)
    (rest : List Char) (acc : List (List Char × JValue)),
    es ≠ [] → wfMembers es = true → jsizeMembers es ≤ fuel →
    parseMembers fuel (dumpsMembers es ++ '}' :: rest) acc =
      some (es.foldl (fun a p => alistUpdate a p.1 p.2) acc, rest)
  | [], _, _, _ => by intro hne _ _; exact absurd rfl hne
  | [(k, v)], fuel, rest, acc => by
    intro _ hwf hfuel
    cases fuel with
    | zero =>
      have := jsizeMembers_pos [(k, v)]
      omega
    | succ f =>
      obtain ⟨_, hwfv, _⟩ := wfMembers_cons k v [] hwf
      have hfv : jsize v ≤ f := by
        simp only [jsizeMembers] at hfuel
        omega
      have hd : dumpsMembers [(k, v)] ++ '}' :: rest =
          '"' :: (escapeStr k ++ '"' :: (':' :: ' ' :: (dumps v ++ '}' :: rest))) := by
        simp [dumpsMembers]
      have hsb := parseStrBody_escape k (':' :: ' ' :: (dumps v ++ '}' :: rest))
      have hpv := parseVal_dumps v f ('}' :: rest) hwfv hfv
        (noDigit_head_lit '}' (by decide) rest)
      rw [hd]
      simp only [parseMembers, if_pos rfl, hsb]
      rw [skipWs_cons_of_not_ws ':' _ (by decide)]
      simp only [if_pos rfl, skipWs_space, skipWs_dumps_append, hpv]
      rw [skipWs_cons_of_not_ws '}' _ (by decide)]
      simp only [List.foldl_cons, List.foldl_nil]
      rfl
  | (k, v) :: m :: r, fuel, rest, acc => by
    intro _ hwf hfuel
    cases fuel with
    | zero =>
      have := jsizeMembers_pos ((k, v) :: m :: r)
      omega
    | succ f =>
      obtain ⟨_, hwfv, hwfr⟩ := wfMembers_cons k v (m :: r) hwf
      have hfv : jsize v ≤ f := by
        have := jsizeMembers_pos (m :: r)
        simp only [jsizeMembers] at hfuel
        omega
      have hfr : jsizeMembers (m :: r) ≤ f := by
        have := jsize_pos v
        simp only [jsizeMembers] at hfuel
        omega
      have hd : dumpsMembers ((k, v) :: m :: r) ++ '}' :: rest =
          '"' :: (escapeStr k ++ '"' :: (':' :: ' ' ::
            (dumps v ++ ',' :: ' ' :: (dumpsMembers (m :: r) ++ '}' :: rest)))) := by
        simp [dumpsMembers]
      have hsb := parseStrBody_escape k
        (':' :: ' ' :: (dumps v ++ ',' :: ' ' :: (dumpsMembers (m :: r) ++ '}' :: rest)))
      have hpv := parseVal_dumps v f
        (',' :: ' ' :: (dumpsMembers (m :: r) ++ '}' :: rest)) hwfv hfv
        (noDigit_head_lit ',' (by decide) _)
      obtain ⟨X2, hX2⟩ := dumpsMembers_cons_head m r
      have hsk2 : skipWs (' ' :: (dumpsMembers (m :: r) ++ '}' :: rest)) =
          dumpsMembers (m :: r) ++ '}' :: rest := by
        rw [skipWs_space, hX2, List.cons_append,
          skipWs_cons_of_not_ws '"' _ (by decide)]
      rw [hd]
      simp only [parseMembers, if_pos rfl, hsb]
      rw [skipWs_cons_of_not_ws ':' _ (by decide)]
      simp only [if_pos rfl, skipWs_space, skipWs_dumps_append, hpv]
      rw [skipWs_cons_of_not_ws ',' _ (by decide)]
      simp only [if_pos rfl]
      rw [hsk2, parseMembers_dumps (m :: r) f rest (alistUpdate acc k v)
        (by simp) hwfr hfr]
      simp only [List.foldl_cons]
      rfl

end

/-! ## Loads roundtrip and the backward scan -/

theorem pyJsonLoads_dumps (v : JValue) (h : v.wf = true) :
    pyJsonLoads (dumps v) = some v := by
  unfold pyJsonLoads
  rw [show skipWs (dumps v) = dumps v from by simpa using skipWs_dumps_append v []]
  rw [show dumps v = dumps v ++ [] from (List.append_nil _).symm]
  have hle : jsize v ≤ (dumps v ++ []).length + 1 := by
    have := jsize_le_dumps v
    simp only [List.append_nil]
    omega
  have hpv := parseVal_dumps v ((dumps v ++ []).length + 1) [] h hle
    (fun d t' hh => absurd hh (by simp))
  simp only [hpv]
  simp [skipWs]

theorem scanBack_step_down (c : List Char) (j : Nat) : ∀ k : Nat, 1 ≤ k → k ≤ j →
    (∀ p, k < p → p ≤ j → c.get? p ≠ some '\n') →
    scanBack c j = scanBack c k := by
  induction j with
  | zero => intro k hk hjk _; omega
  | succ j ih =>
    intro k hk hjk hup
    by_cases hkj : k = j + 1
    · rw [hkj]
    · have hlt : k ≤ j := by omega
      have hch : c.get? (j + 1) ≠ some '\n' := hup (j + 1) (by omega) (by omega)
      have hstep : scanBack c (j + 1) = scanBack c j := by
        obtain ⟨m, rfl⟩ : ∃ m, j = m + 1 := ⟨j - 1, by omega⟩
        show scanBack c (m + 2) = scanBack c (m + 1)
        simp only [scanBack]
        rw [if_neg (by simpa using hch)]
      rw [hstep]
      exact ih k hk hlt (fun p h1 h2 => hup p h1 (by omega))

theorem scanBack_found (A D : List Char) (hA : 1 ≤ A.length) (hD : '\n' ∉ D) :
    scanBack (A ++ '\n' :: D) (A ++ '\n' :: D).length = A.length := by
  have hlen : (A ++ '\n' :: D).length = A.length + D.length + 1 := by
    simp only [List.length_append, List.length_cons]
    omega
  have hup : ∀ p, A.length < p → p ≤ (A ++ '\n' :: D).length →
      (A ++ '\n' :: D).get? p ≠ some '\n' := by
    intro p hp1 hp2 hcontra
    by_cases hpe : p < (A ++ '\n' :: D).length
    · have hr : (A ++ '\n' :: D).get? p = ('\n' :: D).get? (p - A.length) :=
        List.get?_append_right (by omega)
      have hd : ('\n' :: D).get? (p - A.length) = D.get? (p - A.length - 1) := by
        obtain ⟨m, hm⟩ : ∃ m, p - A.length = m + 1 := ⟨p - A.length - 1, by omega⟩
        rw [hm]
        simp
      rw [hr, hd] at hcontra
      exact hD (List.get?_mem hcontra)
    · rw [List.get?_eq_none.mpr (by omega)] at hcontra
      exact Option.noConfusion hcontra
  have hdown : scanBack (A ++ '\n' :: D) (A ++ '\n' :: D).length =
      scanBack (A ++ '\n' :: D) A.length :=
    scanBack_step_down _ _ A.length hA (by omega) hup
  rw [hdown]
  by_cases h1 : A.length = 1
  · rw [h1]
    rfl
  · obtain ⟨m, hm⟩ : ∃ m, A.length = m + 2 := ⟨A.length - 2, by omega⟩
    have hnl : (A ++ '\n' :: D).get? A.length = some '\n' := by
      rw [List.get?_append_right (by omega)]
      simp
    rw [hm]
    simp only [scanBack]
    rw [if_pos (by rw [← hm]; simpa using hnl)]

/-! ## Behaviour of the footer loader -/

theorem scanBack_ge_one (c : List Char) : ∀ j : Nat, 1 ≤ j → 1 ≤ scanBack c j := by
  intro j
  induction j with
  | zero => omega
  | succ j ih =>
    intro _
    match j with
    | 0 => exact le_refl 1
    | m + 1 =>
      show 1 ≤ scanBack c (m + 2)
      simp only [scanBack]
      split
      · omega
      · exact ih (by omega)

theorem scanBack_le (c : List Char) : ∀ j : Nat, scanBack c j ≤ j := by
  intro j
  induction j with
  | zero => simp [scanBack]
  | succ j ih =>
    match j with
    | 0 => simp [scanBack]
    | m + 1 =>
      show scanBack c (m + 2) ≤ m + 2
      simp only [scanBack]
      split
      · omega
      · exact le_trans (ih) (by omega)

theorem load_index_pos_restore (st : DbState) (trunc force : Bool)
    (h : st.content ≠ [] ∨ st.pos = 0) :
    (load_index st trunc force).pos = st.pos := by
  by_cases hc : st.content = []
  · have hp : st.pos = 0 := by
      rcases h with h | h
      · exact absurd hc h
      · exact h
    simp only [load_index, hc]
    simp [scanBack, hp]
  · have hlen : 1 ≤ st.content.length :=
      List.length_pos.mpr hc
    have hscan : 1 ≤ scanBack st.content st.content.length :=
      scanBack_ge_one st.content st.content.length hlen
    simp only [load_index]
    rw [if_neg (by omega)]
    split
    · rfl
    · split
      · split
        · rfl
        · split
          · rfl
          · split
            · rfl
            · rfl
      · split
        · split
          · rfl
          · rfl
        · rfl

theorem load_index_content_no_trunc (st : DbState) (force : Bool) :
    (load_index st false force).content = st.content := by
  simp only [load_index]
  split
  · rfl
  · split
    · rfl
    · split
      · split
        · rfl
        · split
          · rfl
          · rfl
      · rfl

theorem isEmptyDict_true_iff (idx : JValue) : isEmptyDict idx = true ↔ idx = .jobj [] := by
  cases idx with
  | jnum i => simp [isEmptyDict]
  | jstr s => simp [isEmptyDict]
  | jarr l => simp [isEmptyDict]
  | jobj es => cases es <;> simp [isEmptyDict]

theorem load_index_index_char (c : List Char) (p : Nat) (idx : JValue)
    (trunc force : Bool) :
    (load_index ⟨c, p, idx⟩ trunc force).index =
      if scanBack c c.length < 1 then idx
      else
        match pyInt (c.drop (scanBack c c.length)) with
        | none => idx
        | some indexPos =>
          if isEmptyDict idx || force then
            if indexPos < 0 then idx
            else
              match pyJsonLoads (pyReadN c indexPos.toNat
                  ((scanBack c c.length : Int) - indexPos)) with
              | none => idx
              | some v => v
          else idx := by
  simp only [load_index]
  split
  · rfl
  · split
    · rfl
    · split
      · split
        · rfl
        · split
          · rfl
          · split
            · rfl
            · rfl
      · split
        · split
          · rfl
          · rfl
        · rfl

theorem load_index_idem (c : List Char) (p p' : Nat) (idx : JValue) :
    (load_index ⟨c, p', (load_index ⟨c, p, idx⟩ false false).index⟩ false false).index =
      (load_index ⟨c, p, idx⟩ false false).index := by
  simp only [load_index_index_char]
  by_cases h0 : scanBack c c.length < 1
  · simp [h0]
  · simp only [if_neg h0]
    cases hint : pyInt (c.drop (scanBack c c.length)) with
    | none => simp
    | some ip =>
      simp only []
      by_cases hcache : isEmptyDict idx = true
      · simp only [hcache, Bool.true_or, if_true]
        by_cases hneg : ip < 0
        · simp only [if_pos hneg]
          simp [hcache]
        · simp only [if_neg hneg]
          cases hload : pyJsonLoads (pyReadN c ip.toNat
              ((scanBack c c.length : Int) - ip)) with
          | none => simp [hcache, hneg]
          | some v =>
            simp only []
            by_cases hv : isEmptyDict v = true
            · simp only [hv, Bool.true_or, if_true, if_neg hneg, hload]
            · simp [hv]
      · have hc' : isEmptyDict idx = false := by
          cases h : isEmptyDict idx
          · rfl
          · exact absurd h hcache
        simp [hc']

/-! ## Behaviour of the read path -/

theorem readOffsets_fst_pos_indep (content : List Char) (offs : List JValue)
    (p p' : Nat) :
    (readOffsets content offs p).1 = (readOffsets content offs p').1 := by
  cases offs with
  | nil => rfl
  | cons x rest =>
    cases x with
    | jnum o =>
      simp only [readOffsets]
      split
      · rfl
      · rfl
    | jstr s => rfl
    | jarr l => rfl
    | jobj es => rfl

theorem getManyLoop_fst_pos_indep (content : List Char) (idx : JValue) :
    ∀ (ks : List (List Char)) (res : List (List Char × List JValue)) (p p' : Nat),
    (getManyLoop content idx ks res p).1 = (getManyLoop content idx ks res p').1 := by
  intro ks
  induction ks with
  | nil => intro res p p'; rfl
  | cons k ks ih =>
    intro res p p'
    cases idx with
    | jnum i => rfl
    | jstr s => rfl
    | jarr l => rfl
    | jobj es =>
      simp only [getManyLoop]
      cases alistGet es k with
      | none => exact ih res p p'
      | some tp =>
        simp only []
        by_cases htp : pyTruthy tp = true
        · simp only [htp, if_true]
          cases tp with
          | jnum o => rfl
          | jstr s2 => rfl
          | jobj es2 => rfl
          | jarr offs =>
            simp only []
            have hfst := readOffsets_fst_pos_indep content offs p p'
            cases hro : readOffsets content offs p with
            | mk f1 p1 =>
              cases hro' : readOffsets content offs p' with
              | mk f2 p2 =>
                have hf : f1 = f2 := by
                  rw [hro, hro'] at hfst
                  exact hfst
                subst hf
                cases f1 with
                | ok vs => exact ih (alistUpdate res k vs) p1 p2
                | error e => rfl
        · simp only [htp, if_false]
          exact ih res p p'

theorem alistGet_update_ne {β : Type} (l : List (List Char × β)) (k k' : List Char)
    (v : β) (h : k' ≠ k) :
    alistGet (alistUpdate l k' v) k = alistGet l k := by
  induction l with
  | nil => simp [alistUpdate, alistGet, h]
  | cons pr rest ih =>
    obtain ⟨k0, v0⟩ := pr
    by_cases hk0 : k0 = k'
    · subst hk0
      simp [alistUpdate, alistGet, h]
    · simp [alistUpdate, alistGet, hk0, ih]

theorem getManyLoop_absent (content : List Char) (es : List (List Char × JValue))
    (k : List Char) (hk : alistGet es k = none) :
    ∀ (ks : List (List Char)) (res : List (List Char × List JValue)) (pos : Nat)
      (r : List (List Char × List JValue)) (p' : Nat),
    alistGet res k = none →
    getManyLoop content (.jobj es) ks res pos = (.ok r, p') →
    alistGet r k = none := by
  intro ks
  induction ks with
  | nil =>
    intro res pos r p' hres hrun
    simp only [getManyLoop] at hrun
    injection hrun with h1 h2
    injection h1 with h1
    rw [← h1]
    exact hres
  | cons k0 ks ih =>
    intro res pos r p' hres hrun
    simp only [getManyLoop] at hrun
    cases hget : alistGet es k0 with
    | none =>
      simp only [hget] at hrun
      exact ih res pos r p' hres hrun
    | some tp =>
      simp only [hget] at hrun
      have hne : k0 ≠ k := by
        rintro rfl
        rw [hget] at hk
        exact Option.noConfusion hk
      by_cases htp : pyTruthy tp = true
      · simp only [htp, if_true] at hrun
        cases tp with
        | jnum o => exact absurd hrun (by simp)
        | jstr s2 => exact absurd hrun (by simp)
        | jobj es2 => exact absurd hrun (by simp)
        | jarr offs =>
          simp only [] at hrun
          cases hro : readOffsets content offs pos with
          | mk f1 p1 =>
            simp only [hro] at hrun
            cases f1 with
            | ok vs =>
              simp only [] at hrun
              have hres' : alistGet (alistUpdate res k0 vs) k = none := by
                rw [alistGet_update_ne res k k0 vs hne]
                exact hres
              exact ih (alistUpdate res k0 vs) p1 r p' hres' hrun
            | error e => exact absurd hrun (by simp)
      · have htp' : pyTruthy tp = false := by
          cases h : pyTruthy tp
          · rfl
          · exact absurd h htp
        simp only [htp', Bool.false_eq_true, if_false] at hrun
        exact ih res pos r p' hres hrun

theorem get_core_absent (st : DbState) (k : List Char)
    (es : List (List Char × JValue))
    (h1 : (load_index st false false).index = .jobj es)
    (h2 : alistGet es k = none) :
    (get_core st k).1 = .ok [] := by
  unfold get_core get_many_core
  simp only [h1, getManyLoop, h2]
  simp [alistGetD, alistGet]

/-! ## The loader on a well-formed footer -/

theorem footer_scan (front J : List Char) (hJ1 : 1 ≤ J.length) :
    scanBack (front ++ J ++ '\n' :: natRepr front.length)
        (front ++ J ++ '\n' :: natRepr front.length).length =
      (front ++ J).length := by
  rw [show front ++ J ++ '\n' :: natRepr front.length =
      (front ++ J) ++ '\n' :: natRepr front.length from by rw [List.append_assoc]]
  exact scanBack_found (front ++ J) (natRepr front.length)
    (by simp [List.length_append]; omega) (natRepr_no_newline _)

theorem footer_drop (front J : List Char) :
    (front ++ J ++ '\n' :: natRepr front.length).drop ((front ++ J).length) =
      '\n' :: natRepr front.length := by
  rw [show front ++ J ++ '\n' :: natRepr front.length =
      (front ++ J) ++ '\n' :: natRepr front.length from by rw [List.append_assoc]]
  exact List.drop_left _ _

theorem footer_int (front J : List Char) :
    pyInt ((front ++ J ++ '\n' :: natRepr front.length).drop ((front ++ J).length)) =
      some (front.length : Int) := by
  rw [footer_drop, pyInt_newline_natRepr]

theorem footer_truncate (front J : List Char) :
    pyTruncateAt (front ++ J ++ '\n' :: natRepr front.length)
        ((front.length : Int)).toNat = front := by
  have ht : ((front.length : Int)).toNat = front.length := by omega
  rw [ht]
  unfold pyTruncateAt
  have hle : front.length ≤ (front ++ J ++ '\n' :: natRepr front.length).length := by
    simp only [List.length_append]
    omega
  rw [if_pos hle, List.append_assoc]
  exact List.take_left _ _

theorem footer_readn (front J : List Char) :
    pyReadN (front ++ J ++ '\n' :: natRepr front.length)
        ((front.length : Int)).toNat
        (((front ++ J).length : Int) - (front.length : Int)) = J := by
  have ht : ((front.length : Int)).toNat = front.length := by omega
  have hn : (((front ++ J).length : Nat) : Int) - (front.length : Int) =
      (J.length : Int) := by
    simp only [List.length_append]
    omega
  rw [ht, hn]
  simp only [pyReadN]
  rw [if_neg (show ¬((J.length : Int) < 0) from by omega), List.append_assoc]
  rw [show List.drop front.length (front ++ (J ++ '\n' :: natRepr front.length)) =
      J ++ '\n' :: natRepr front.length from List.drop_left _ _,
    show ((J.length : Int)).toNat = J.length from by omega]
  exact List.take_left _ _

theorem load_index_found_cache (front J : List Char) (pos : Nat) (idx : JValue)
    (trunc : Bool) (hJ1 : 1 ≤ J.length)
    (hidx : isEmptyDict idx = false) :
    load_index ⟨front ++ J ++ '\n' :: natRepr front.length, pos, idx⟩ trunc false =
      ⟨if trunc then front else front ++ J ++ '\n' :: natRepr front.length,
        pos, idx⟩ := by
  have hscan := footer_scan front J hJ1
  have hnl : ¬((front ++ J).length < 1) := by
    simp only [List.length_append]
    omega
  have hn0 : ¬((front.length : Int) < 0) := by omega
  simp only [load_index, hscan]
  rw [if_neg hnl]
  simp only [footer_int front J]
  simp only [hidx, Bool.or_false, Bool.false_eq_true, if_false]
  cases trunc with
  | false => rfl
  | true =>
    rw [if_pos rfl, if_neg hn0, footer_truncate front J, if_pos rfl]

theorem load_index_found_fresh (front J : List Char) (pos : Nat) (v : JValue)
    (trunc : Bool) (hJ1 : 1 ≤ J.length)
    (hload : pyJsonLoads J = some v) :
    load_index ⟨front ++ J ++ '\n' :: natRepr front.length, pos, .jobj []⟩ trunc false =
      ⟨if trunc then front else front ++ J ++ '\n' :: natRepr front.length,
        pos, v⟩ := by
  have hscan := footer_scan front J hJ1
  have hnl : ¬((front ++ J).length < 1) := by
    simp only [List.length_append]
    omega
  have hn0 : ¬((front.length : Int) < 0) := by omega
  simp only [load_index, hscan]
  rw [if_neg hnl]
  simp only [footer_int front J]
  simp only [isEmptyDict, Bool.or_false, if_true]
  rw [if_neg hn0]
  simp only [footer_readn front J, hload]
  cases trunc with
  | false => rfl
  | true =>
    rw [if_pos rfl, footer_truncate front J, if_pos rfl]

/-! ## Shape of the file after an append -/

theorem dumps_ne_nil (v : JValue) : dumps v ≠ [] := by
  obtain ⟨c, t, h, _⟩ := dumps_head_shape v
  rw [h]
  simp

theorem pyWrite_snug (c : List Char) (p : Nat) (s : List Char)
    (hp : p ≤ c.length) (hs : c.length ≤ p + s.length) :
    pyWrite c p s = c.take p ++ s := by
  unfold pyWrite
  rw [show p - c.length = 0 from by omega, List.replicate_zero,
    List.drop_eq_nil_of_le (by omega)]
  simp

theorem pyWrite_snug_length (c : List Char) (p : Nat) (s : List Char)
    (hp : p ≤ c.length) (hs : c.length ≤ p + s.length) :
    (pyWrite c p s).length = p + s.length := by
  rw [pyWrite_snug c p s hp hs]
  simp [List.length_take]
  omega

theorem addLoop_inv : ∀ (items : List (List Char × JValue)) (st : DbState),
    st.pos ≤ st.content.length → st.content.length ≤ st.pos + 1 →
    ∀ st' : DbState, addLoop items st = (.ok (), st') →
      st'.pos ≤ st'.content.length ∧ st'.content.length ≤ st'.pos + 1 := by
  intro items
  induction items with
  | nil =>
    intro st h1 h2 st' hrun
    simp only [addLoop] at hrun
    injection hrun with _ h
    rw [← h]
    exact ⟨h1, h2⟩
  | cons kv rest ih =>
    intro st h1 h2 st' hrun
    obtain ⟨k, v⟩ := kv
    simp only [addLoop] at hrun
    cases hidx : st.index with
    | jnum i => rw [hidx] at hrun; exact absurd hrun (by simp)
    | jstr s2 => rw [hidx] at hrun; exact absurd hrun (by simp)
    | jarr l => rw [hidx] at hrun; exact absurd hrun (by simp)
    | jobj entries =>
      rw [hidx] at hrun
      cases hget : alistGetD entries k (JValue.jarr []) with
      | jnum i => simp only [hget] at hrun; exact absurd hrun (by simp)
      | jstr s2 => simp only [hget] at hrun; exact absurd hrun (by simp)
      | jobj es2 => simp only [hget] at hrun; exact absurd hrun (by simp)
      | jarr l =>
        simp only [hget] at hrun
        have hrec : 1 ≤ (dumps (JValue.jobj [(k, v)]) ++ ['\n']).length := by
          simp
        have hlen := pyWrite_snug_length st.content st.pos
          (dumps (JValue.jobj [(k, v)]) ++ ['\n']) h1 (by omega)
        refine ih _ ?_ ?_ st' hrun
        · simp only [hlen]
          omega
        · simp only [hlen]
          omega

theorem add_core_ok_shape (st : DbState) (items : List (List Char × JValue))
    (st' : DbState) (h : add_core st items = (.ok (), st')) :
    ∃ front : List Char,
      st'.content = front ++ dumps st'.index ++ '\n' :: natRepr front.length ∧
      st'.pos = st'.content.length := by
  simp only [add_core] at h
  cases haddl : addLoop items
      { load_index st true false with pos := (load_index st true false).content.length - 1 } with
  | mk r st2 =>
    rw [haddl] at h
    cases r with
    | error e => exact absurd h (by simp)
    | ok u =>
      obtain ⟨⟩ := u
      have hinit1 : ({ load_index st true false with
          pos := (load_index st true false).content.length - 1 } : DbState).pos ≤
          ({ load_index st true false with
          pos := (load_index st true false).content.length - 1 } : DbState).content.length := by
        show (load_index st true false).content.length - 1 ≤
          (load_index st true false).content.length
        omega
      have hinit2 : ({ load_index st true false with
          pos := (load_index st true false).content.length - 1 } : DbState).content.length ≤
          ({ load_index st true false with
          pos := (load_index st true false).content.length - 1 } : DbState).pos + 1 := by
        show (load_index st true false).content.length ≤
          ((load_index st true false).content.length - 1) + 1
        omega
      obtain ⟨hq1, hq2⟩ := addLoop_inv items _ hinit1 hinit2 st2 haddl
      have hline : 1 ≤ (dumps st2.index ++ ['\n']).length := by simp
      have hc3 := pyWrite_snug st2.content st2.pos (dumps st2.index ++ ['\n'])
        hq1 (by omega)
      have hc3len := pyWrite_snug_length st2.content st2.pos (dumps st2.index ++ ['\n'])
        hq1 (by omega)
      have hc4 := pyWrite_snug (pyWrite st2.content st2.pos (dumps st2.index ++ ['\n']))
        (st2.pos + (dumps st2.index ++ ['\n']).length) (natRepr st2.pos)
        (by omega) (by omega)
      have hc4len := pyWrite_snug_length
        (pyWrite st2.content st2.pos (dumps st2.index ++ ['\n']))
        (st2.pos + (dumps st2.index ++ ['\n']).length) (natRepr st2.pos)
        (by omega) (by omega)
      injection h with h1 h2
      have htk : (st2.content.take st2.pos).length = st2.pos := by
        simp [List.length_take]
        omega
      refine ⟨st2.content.take st2.pos, ?_, ?_⟩
      · rw [← h2]
        show pyWrite (pyWrite st2.content st2.pos (dumps st2.index ++ ['\n']))
            (st2.pos + (dumps st2.index ++ ['\n']).length) (natRepr st2.pos) =
          st2.content.take st2.pos ++ dumps st2.index ++
            '\n' :: natRepr (st2.content.take st2.pos).length
        rw [hc4, hc3]
        rw [show ((st2.content.take st2.pos ++ (dumps st2.index ++ ['\n'])).take
            (st2.pos + (dumps st2.index ++ ['\n']).length)) =
            st2.content.take st2.pos ++ (dumps st2.index ++ ['\n']) from by
          apply List.take_of_length_le
          simp [htk]]
        rw [htk]
        simp [List.append_assoc]
      · rw [← h2]
        show st2.pos + (dumps st2.index ++ ['\n']).length + (natRepr st2.pos).length =
          (pyWrite (pyWrite st2.content st2.pos (dumps st2.index ++ ['\n']))
            (st2.pos + (dumps st2.index ++ ['\n']).length) (natRepr st2.pos)).length
        rw [hc4len]

/-! ## Remaining helper lemmas for the claims -/

theorem get_many_core_content (st : DbState) (ks : List (List Char)) :
    (get_many_core st ks).2.content = st.content := by
  unfold get_many_core
  simp only [load_index_content_no_trunc]
  cases h : getManyLoop st.content (load_index st false false).index ks []
      (load_index st false false).pos with
  | mk r p' =>
    cases r with
    | ok res => simp
    | error e => simp

theorem get_many_core_index (st : DbState) (ks : List (List Char)) :
    (get_many_core st ks).2.index = (load_index st false false).index := by
  unfold get_many_core
  simp only [load_index_content_no_trunc]
  cases h : getManyLoop st.content (load_index st false false).index ks []
      (load_index st false false).pos with
  | mk r p' =>
    cases r with
    | ok res => simp
    | error e => simp

theorem get_many_core_fst (st : DbState) (ks : List (List Char)) :
    (get_many_core st ks).1 =
      (getManyLoop st.content (load_index st false false).index ks [] 0).1 := by
  unfold get_many_core
  simp only [load_index_content_no_trunc]
  have hpi := getManyLoop_fst_pos_indep st.content
    (load_index st false false).index ks [] (load_index st false false).pos 0
  cases h : getManyLoop st.content (load_index st false false).index ks []
      (load_index st false false).pos with
  | mk r p' =>
    rw [h] at hpi
    cases r with
    | ok res => simpa using hpi
    | error e => simpa using hpi

theorem readOffsets_bad (content : List Char) : ∀ (offs : List JValue) (pos : Nat),
    (∃ o : Int, JValue.jnum o ∈ offs ∧ 0 ≤ o ∧
      pyJsonLoads (pyReadLine content o.toNat) = none) →
    ∃ e, (readOffsets content offs pos).1 = .error e := by
  intro offs
  induction offs with
  | nil =>
    intro pos hbad
    obtain ⟨o, hmem, _, _⟩ := hbad
    exact absurd hmem (by simp)
  | cons x rest ih =>
    intro pos hbad
    cases x with
    | jstr s2 => exact ⟨.typeError, rfl⟩
    | jarr l2 => exact ⟨.typeError, rfl⟩
    | jobj es2 => exact ⟨.typeError, rfl⟩
    | jnum o =>
      by_cases hneg : o < 0
      · refine ⟨.valueError, ?_⟩
        simp only [readOffsets, if_pos hneg]
      · simp only [readOffsets, if_neg hneg]
        cases hload : pyJsonLoads (pyReadLine content o.toNat) with
        | none => exact ⟨.jsonDecodeError, rfl⟩
        | some v =>
          cases v with
          | jnum i2 => exact ⟨.attributeError, rfl⟩
          | jstr s2 => exact ⟨.attributeError, rfl⟩
          | jarr l2 => exact ⟨.attributeError, rfl⟩
          | jobj es2 =>
            simp only []
            have hbadrest : ∃ o' : Int, JValue.jnum o' ∈ rest ∧ 0 ≤ o' ∧
                pyJsonLoads (pyReadLine content o'.toNat) = none := by
              obtain ⟨o', hmem, ho1, ho2⟩ := hbad
              rcases List.mem_cons.mp hmem with heq | hmem'
              · injection heq with heq
                subst heq
                rw [hload] at ho2
                exact absurd ho2 (by simp)
              · exact ⟨o', hmem', ho1, ho2⟩
            obtain ⟨e, he⟩ :=
              ih (o.toNat + (pyReadLine content o.toNat).length) hbadrest
            cases hro : readOffsets content rest
                (o.toNat + (pyReadLine content o.toNat).length) with
            | mk f1 p1 =>
              rw [hro] at he
              cases f1 with
              | ok vs => exact absurd he (by simp)
              | error e1 =>
                refine ⟨e1, ?_⟩
                simp only [hro]

theorem getManyLoop_bad (content : List Char) (es : List (List Char × JValue)) :
    ∀ (ks : List (List Char)) (res : List (List Char × List JValue)) (pos : Nat)
      (k : List Char) (offs : List JValue),
    k ∈ ks → alistGet es k = some (.jarr offs) →
    (∃ o : Int, JValue.jnum o ∈ offs ∧ 0 ≤ o ∧
      pyJsonLoads (pyReadLine content o.toNat) = none) →
    ∃ e, (getManyLoop content (.jobj es) ks res pos).1 = .error e := by
  intro ks
  induction ks with
  | nil =>
    intro res pos k offs hmem _ _
    exact absurd hmem (by simp)
  | cons k0 ks ih =>
    intro res pos k offs hmem hget hbad
    by_cases hk0 : k0 = k
    · subst hk0
      have htruthy : pyTruthy (JValue.jarr offs) = true := by
        obtain ⟨o, ho, _, _⟩ := hbad
        cases offs with
        | nil => exact absurd ho (by simp)
        | cons x rest => simp [pyTruthy]
      obtain ⟨e, he⟩ := readOffsets_bad content offs pos hbad
      simp only [getManyLoop, hget, htruthy, if_true]
      cases hro : readOffsets content offs pos with
      | mk f1 p1 =>
        rw [hro] at he
        cases f1 with
        | ok vs => exact absurd he (by simp)
        | error e1 => exact ⟨e1, rfl⟩
    · have hmem' : k ∈ ks := by
        rcases List.mem_cons.mp hmem with h | h
        · exact absurd h.symm hk0
        · exact h
      simp only [getManyLoop]
      cases hget0 : alistGet es k0 with
      | none => exact ih res pos k offs hmem' hget hbad
      | some tp =>
        simp only []
        by_cases htp : pyTruthy tp = true
        · simp only [htp, if_true]
          cases tp with
          | jnum o2 => exact ⟨.typeError, rfl⟩
          | jstr s2 => exact ⟨.typeError, rfl⟩
          | jobj es2 => exact ⟨.typeError, rfl⟩
          | jarr offs0 =>
            simp only []
            cases hro : readOffsets content offs0 pos with
            | mk f1 p1 =>
              cases f1 with
              | ok vs => exact ih (alistUpdate res k0 vs) p1 k offs hmem' hget hbad
              | error e1 => exact ⟨e1, rfl⟩
        · have htp' : pyTruthy tp = false := by
            cases h : pyTruthy tp
            · rfl
            · exact absurd h htp
          simp only [htp', Bool.false_eq_true, if_false]
          exact ih res pos k offs hmem' hget hbad

theorem readOffsets_first_bad (content : List Char) : ∀ (offs1 : List JValue)
    (offs2 : List JValue) (o : Int) (pos : Nat),
    (∀ x ∈ offs1, ∃ o' : Int, x = .jnum o' ∧ 0 ≤ o' ∧
      ∃ es' : List (List Char × JValue),
        pyJsonLoads (pyReadLine content o'.toNat) = some (.jobj es')) →
    0 ≤ o → pyJsonLoads (pyReadLine content o.toNat) = none →
    (readOffsets content (offs1 ++ .jnum o :: offs2) pos).1 =
      .error .jsonDecodeError := by
  intro offs1
  induction offs1 with
  | nil =>
    intro offs2 o pos _ ho hnone
    have hneg : ¬ o < 0 := by omega
    simp only [List.nil_append, readOffsets, if_neg hneg, hnone]
  | cons x rest ih =>
    intro offs2 o pos hgood ho hnone
    obtain ⟨o1, hx, ho1, es1, hload⟩ := hgood x (List.mem_cons_self x rest)
    subst hx
    have hneg1 : ¬ o1 < 0 := by omega
    have hrest := ih offs2 o (o1.toNat + (pyReadLine content o1.toNat).length)
      (fun y hy => hgood y (List.mem_cons_of_mem _ hy)) ho hnone
    simp only [List.cons_append, readOffsets, if_neg hneg1, hload]
    cases hro : readOffsets content (rest ++ .jnum o :: offs2)
        (o1.toNat + (pyReadLine content o1.toNat).length) with
    | mk f1 p1 =>
      rw [hro] at hrest
      cases f1 with
      | ok vs => exact absurd hrest (by simp)
      | error e1 =>
        simp only [] at hrest ⊢
        injection hrest with hrest
        rw [hrest]

theorem getManyLoop_first_bad (content : List Char) (es : List (List Char × JValue)) :
    ∀ (ks1 ks2 : List (List Char)) (k : List Char)
      (res : List (List Char × List JValue)) (pos : Nat)
      (offs1 offs2 : List JValue) (o : Int),
    (∀ k' ∈ ks1, alistGet es k' = none ∨
      ∃ tp, alistGet es k' = some tp ∧ pyTruthy tp = false) →
    alistGet es k = some (.jarr (offs1 ++ .jnum o :: offs2)) →
    (∀ x ∈ offs1, ∃ o' : Int, x = .jnum o' ∧ 0 ≤ o' ∧
      ∃ es' : List (List Char × JValue),
        pyJsonLoads (pyReadLine content o'.toNat) = some (.jobj es')) →
    0 ≤ o → pyJsonLoads (pyReadLine content o.toNat) = none →
    (getManyLoop content (.jobj es) (ks1 ++ k :: ks2) res pos).1 =
      .error .jsonDecodeError := by
  intro ks1
  induction ks1 with
  | nil =>
    intro ks2 k res pos offs1 offs2 o _ hget hgood ho hnone
    have htruthy : pyTruthy (JValue.jarr (offs1 ++ .jnum o :: offs2)) = true := by
      cases offs1 <;> simp [pyTruthy]
    have hro := readOffsets_first_bad content offs1 offs2 o pos hgood ho hnone
    simp only [List.nil_append, getManyLoop, hget, htruthy, if_true]
    cases hres : readOffsets content (offs1 ++ .jnum o :: offs2) pos with
    | mk f1 p1 =>
      rw [hres] at hro
      cases f1 with
      | ok vs => exact absurd hro (by simp)
      | error e1 =>
        simp only [] at hro ⊢
        injection hro with hro
        rw [hro]
  | cons k0 rest ih =>
    intro ks2 k res pos offs1 offs2 o hskip hget hgood ho hnone
    have hrest : ∀ k' ∈ rest, alistGet es k' = none ∨
        ∃ tp, alistGet es k' = some tp ∧ pyTruthy tp = false :=
      fun k' h => hskip k' (List.mem_cons_of_mem _ h)
    simp only [List.cons_append, getManyLoop]
    rcases hskip k0 (List.mem_cons_self k0 rest) with hnone0 | ⟨tp, hsome, hfalsy⟩
    · simp only [hnone0]
      exact ih ks2 k res pos offs1 offs2 o hrest hget hgood ho hnone
    · simp only [hsome, hfalsy, Bool.false_eq_true, if_false]
      exact ih ks2 k res pos offs1 offs2 o hrest hget hgood ho hnone

theorem load_index_fail_fresh (st : DbState) (trunc force : Bool)
    (h1 : 1 ≤ scanBack st.content st.content.length)
    (hidx : st.index = .jobj [])
    (hfail : pyInt (st.content.drop (scanBack st.content st.content.length)) = none ∨
      ∃ ip : Int, pyInt (st.content.drop (scanBack st.content st.content.length)) =
          some ip ∧
        (ip < 0 ∨ pyJsonLoads (pyReadN st.content ip.toNat
          ((scanBack st.content st.content.length : Int) - ip)) = none)) :
    load_index st trunc force = ⟨st.content, st.pos, .jobj []⟩ := by
  simp only [load_index]
  rw [if_neg (by omega)]
  rcases hfail with hfail | ⟨ip, hip, hfail⟩
  · simp only [hfail]
    rw [← hidx]
  · simp only [hip, hidx, isEmptyDict, Bool.true_or, if_true]
    by_cases hneg : ip < 0
    · rw [if_pos hneg]
    · have hload : pyJsonLoads (pyReadN st.content ip.toNat
          ((scanBack st.content st.content.length : Int) - ip)) = none := by
        rcases hfail with h | h
        · exact absurd h hneg
        · exact h
      rw [if_neg hneg]
      simp only [hload]

theorem load_index_trunc_content (st : DbState) :
    (load_index st true false).content = truncateOutcome st.content st.index := by
  simp only [load_index, truncateOutcome]
  by_cases h0 : scanBack st.content st.content.length < 1
  · simp [h0]
  · simp only [if_neg h0]
    cases hint : pyInt (st.content.drop (scanBack st.content st.content.length)) with
    | none => simp
    | some ip =>
      simp only []
      by_cases hcache : isEmptyDict st.index = true
      · simp only [hcache, Bool.or_false, if_true]
        by_cases hneg : ip < 0
        · simp [if_pos hneg]
        · simp only [if_neg hneg]
          cases hload : pyJsonLoads (pyReadN st.content ip.toNat
              ((scanBack st.content st.content.length : Int) - ip)) with
          | none => simp
          | some v => simp
      · have hc' : isEmptyDict st.index = false := by
          cases h : isEmptyDict st.index
          · rfl
          · exact absurd h hcache
        simp only [hc', Bool.or_false, Bool.false_eq_true, if_false, if_true]
        by_cases hneg : ip < 0
        · simp [if_pos hneg]
        · simp [if_neg hneg]

/-! ## Claims -/

/-- C1 (code bug): the claim says that after `add({"a": 1})` followed by
`add({"a": 2})` on an initially empty file, `get("a")` returns `[1, 2]`.
The code instead raises `JSONDecodeError`: the second `add` seeks to
`max(end - 1, 0)` and overwrites the newline that terminated the first
record, so the line read back at offset 0 is `{"a": 1}{"a": 2}` which is
not valid JSON.  This theorem evaluates the model at that failing input:
both adds succeed and the subsequent `get` raises. -/
theorem claim_C1_roundtrip_code_bug :
    (Jsondb.add freshDb [("a".toList, JValue.jnum 1)]).1 = .ok () ∧
    ((Jsondb.add freshDb [("a".toList, JValue.jnum 1)]).2.add
      [("a".toList, JValue.jnum 2)]).1 = .ok () ∧
    (((Jsondb.add freshDb [("a".toList, JValue.jnum 1)]).2.add
      [("a".toList, JValue.jnum 2)]).2.get ("a".toList)).1 =
      .error .jsonDecodeError :=
  ⟨rfl, rfl, rfl⟩

/-- C4 counterexample: on an empty file with the cursor at position 1, the
early return of `_load_index` (line 108) leaves the cursor at 0 instead of
restoring it, refuting "restores exactly that position on every path for
every file content and every initial cursor position". -/
theorem claim_C4_counterexample :
    (load_index ⟨[], 1, .jobj []⟩ false false).pos = 0 ∧ (0 : Nat) ≠ 1 :=
  ⟨rfl, by decide⟩

/-- C4 amended: `_load_index` records the cursor on entry and restores it on
every path except the "no line start found" early return, which is taken
exactly on an empty file and leaves the cursor at 0; hence the cursor is
restored whenever the file is nonempty or the entry position is 0. -/
theorem claim_C4_cursor_restore_amended (st : DbState) (trunc force : Bool)
    (h : st.content ≠ [] ∨ st.pos = 0) :
    (load_index st trunc force).pos = st.pos :=
  load_index_pos_restore st trunc force h

/-- C4 amended witness at a nonempty one-character file and cursor 5. -/
theorem claim_C4_amended_witness :
    ((['x'] : List Char) ≠ [] ∨ (5 : Nat) = 0) ∧
    (load_index ⟨['x'], 5, .jobj []⟩ false false).pos = 5 :=
  ⟨Or.inl (by simp),
    claim_C4_cursor_restore_amended ⟨['x'], 5, .jobj []⟩ false false (Or.inl (by simp))⟩

/-- C8 counterexample: with a non-empty cached in-memory index, a valid
pointer line and an unparseable footer JSON line, `_load_index` with
truncation still truncates the file at `index_pos` even though step 5 (the
JSON parse) was skipped and would have failed — refuting "truncated only if
step 5 succeeded in that same invocation". -/
theorem claim_C8_counterexample :
    pyInt (("\x7b\"a\": 1\x7d\nNOTJSON\n9".toList).drop
      (scanBack ("\x7b\"a\": 1\x7d\nNOTJSON\n9".toList)
        ("\x7b\"a\": 1\x7d\nNOTJSON\n9".toList).length)) = some 9 ∧
    pyJsonLoads (pyReadN ("\x7b\"a\": 1\x7d\nNOTJSON\n9".toList) 9 7) = none ∧
    (load_index ⟨"\x7b\"a\": 1\x7d\nNOTJSON\n9".toList, 0,
      .jobj [("a".toList, .jarr [.jnum 0])]⟩ true false).content =
      "\x7b\"a\": 1\x7d\n".toList ∧
    (load_index ⟨"\x7b\"a\": 1\x7d\nNOTJSON\n9".toList, 0,
      .jobj [("a".toList, .jarr [.jnum 0])]⟩ true false).content ≠
      "\x7b\"a\": 1\x7d\nNOTJSON\n9".toList :=
  ⟨rfl, rfl, rfl, by decide⟩

/-- C8 amended: when truncation is requested, the resulting file content is
exactly `truncateOutcome`: the file is truncated at `index_pos` whenever the
pointer line parses to a nonnegative integer and either the footer JSON line
parses or a non-empty cached index makes the JSON step be skipped; on an
uncached load whose pointer or JSON parse fails the file is unmodified. -/
theorem claim_C8_truncate_amended (st : DbState) :
    (load_index st true false).content = truncateOutcome st.content st.index :=
  load_index_trunc_content st

/-- C3 counterexample: the claim says every footer parse failure leaves an
empty index and makes every `get` return `[]`.  With a non-empty cached
in-memory index and a corrupt pointer line (`GARBAGE`), the failure is
swallowed but the stale cache survives: the load yields the non-empty
cached index and `get("a")` returns `[1]`, not `[]`. -/
theorem claim_C3_counterexample :
    pyInt (("\x7b\"a\": 1\x7d\nGARBAGE".toList).drop
      (scanBack ("\x7b\"a\": 1\x7d\nGARBAGE".toList)
        ("\x7b\"a\": 1\x7d\nGARBAGE".toList).length)) = none ∧
    load_index ⟨"\x7b\"a\": 1\x7d\nGARBAGE".toList, 0,
        .jobj [("a".toList, .jarr [.jnum 0])]⟩ false false =
      ⟨"\x7b\"a\": 1\x7d\nGARBAGE".toList, 0,
        .jobj [("a".toList, .jarr [.jnum 0])]⟩ ∧
    (get_core ⟨"\x7b\"a\": 1\x7d\nGARBAGE".toList, 0,
      .jobj [("a".toList, .jarr [.jnum 0])]⟩ ("a".toList)).1 =
      .ok [JValue.jnum 1] ∧
    (Except.ok [JValue.jnum 1] : Except PyError (List JValue)) ≠ .ok [] :=
  ⟨rfl, rfl, rfl, by simp⟩

/-- C3 amended: when no index is cached in memory (`self.__index == {}`),
every footer-locating or decoding failure — the pointer line does not parse
as an integer, parses to a negative position, or the footer JSON line does
not parse — is swallowed: the load leaves the index empty, the file and
cursor untouched, and a subsequent `get` of any key returns `[]` without
raising.  With a non-empty cache the failure is still swallowed but the
stale cached index remains in use. -/
theorem claim_C3_corrupt_footer_amended (st : DbState) (k : List Char)
    (hidx : st.index = .jobj [])
    (h1 : 1 ≤ scanBack st.content st.content.length)
    (hfail : pyInt (st.content.drop (scanBack st.content st.content.length)) = none ∨
      ∃ ip : Int, pyInt (st.content.drop (scanBack st.content st.content.length)) =
          some ip ∧
        (ip < 0 ∨ pyJsonLoads (pyReadN st.content ip.toNat
          ((scanBack st.content st.content.length : Int) - ip)) = none)) :
    load_index st false false = ⟨st.content, st.pos, .jobj []⟩ ∧
    (get_core st k).1 = .ok [] := by
  have hl := load_index_fail_fresh st false false h1 hidx hfail
  refine ⟨hl, ?_⟩
  exact get_core_absent st k [] (by rw [hl]) rfl

/-- C3 amended witness: a fresh (uncached) instance over a file whose last
line is `GARBAGE`; the integer parse fails and `get("x")` returns `[]`. -/
theorem claim_C3_amended_witness :
    load_index ⟨"\x7b\"a\": 1\x7d\nGARBAGE".toList, 0, .jobj []⟩ false false =
      ⟨"\x7b\"a\": 1\x7d\nGARBAGE".toList, 0, .jobj []⟩ ∧
    (get_core ⟨"\x7b\"a\": 1\x7d\nGARBAGE".toList, 0, .jobj []⟩ ("x".toList)).1 =
      .ok [] :=
  claim_C3_corrupt_footer_amended
    ⟨"\x7b\"a\": 1\x7d\nGARBAGE".toList, 0, .jobj []⟩ ("x".toList)
    rfl (by decide) (Or.inl rfl)

/-- C5: a key absent from the loaded index is never an error: `get` returns
`[]`, and any successful `get_many` omits the key from its result mapping.
This holds both on a never-written file (where the loaded index is the empty
object) and on a file with prior records. -/
theorem claim_C5_missing_key (st : DbState) (k : List Char) (ks : List (List Char))
    (es : List (List Char × JValue))
    (h1 : (load_index st false false).index = .jobj es)
    (h2 : alistGet es k = none) :
    (get_core st k).1 = .ok [] ∧
    ∀ (r : List (List Char × List JValue)) (st' : DbState),
      get_many_core st ks = (.ok r, st') → alistGet r k = none := by
  refine ⟨get_core_absent st k es h1 h2, ?_⟩
  intro r st' hrun
  simp only [get_many_core, h1] at hrun
  cases hloop : getManyLoop (load_index st false false).content (JValue.jobj es) ks []
      (load_index st false false).pos with
  | mk f1 p1 =>
    rw [hloop] at hrun
    cases f1 with
    | error e => exact absurd hrun (by simp)
    | ok res =>
      simp only [] at hrun
      injection hrun with hr _
      injection hr with hr
      rw [← hr]
      exact getManyLoop_absent (load_index st false false).content es k h2 ks []
        (load_index st false false).pos res p1 rfl hloop

/-- C5 witness: on a one-record file, key "b" is absent: `get("b")` is `[]`
and `get_many(["b"])` omits it. -/
theorem claim_C5_witness :
    (get_core ⟨"\x7b\"a\": 1\x7d\n\x7b\"a\": [0]\x7d\n9".toList, 0, .jobj []⟩
      ("b".toList)).1 = .ok [] ∧
    ∀ (r : List (List Char × List JValue)) (st' : DbState),
      get_many_core ⟨"\x7b\"a\": 1\x7d\n\x7b\"a\": [0]\x7d\n9".toList, 0, .jobj []⟩
        ["b".toList] = (.ok r, st') → alistGet r ("b".toList) = none :=
  claim_C5_missing_key ⟨"\x7b\"a\": 1\x7d\n\x7b\"a\": [0]\x7d\n9".toList, 0, .jobj []⟩
    ("b".toList) ["b".toList] [("a".toList, .jarr [.jnum 0])] rfl rfl

/-- C2: after every completed `add`, the file consists of the records part
followed by exactly one footer: the serialized in-memory index (a single
newline-free line), a newline, and the pointer line (newline-free, the
file's last line) holding the decimal offset where the index line begins;
re-running the footer loader on the resulting file with truncation, from a
fresh (empty) cache and any cursor position, parses that footer back to
exactly the written index, strips exactly the footer, and restores the
cursor — so two successive completed `add` calls can never leave two
footers.  The well-formedness hypothesis on the resulting in-memory index
(distinct object keys) holds for every value a Python dict can represent. -/
theorem claim_C2_single_footer (db : Jsondb) (items : List (List Char × JValue))
    (db' : Jsondb) (hrun : Jsondb.add db items = (.ok (), db'))
    (hwf : db'.index.wf = true) :
    ∃ front : List Char,
      db'.content = front ++ dumps db'.index ++ '\n' :: natRepr front.length ∧
      '\n' ∉ dumps db'.index ∧ dumps db'.index ≠ [] ∧
      '\n' ∉ natRepr front.length ∧ natRepr front.length ≠ [] ∧
      ∀ p : Nat, load_index ⟨db'.content, p, .jobj []⟩ true false =
        ⟨front, p, db'.index⟩ := by
  simp only [Jsondb.add] at hrun
  cases hfio : db.fio with
  | none =>
    rw [hfio] at hrun
    exact absurd hrun (by simp)
  | some p =>
    rw [hfio] at hrun
    simp only [] at hrun
    injection hrun with h1 h2
    have hcore : add_core ⟨db.content, p, db.index⟩ items =
        (.ok (), (add_core ⟨db.content, p, db.index⟩ items).2) := by
      rw [← h1]
    obtain ⟨front, hshape, hpos⟩ :=
      add_core_ok_shape ⟨db.content, p, db.index⟩ items _ hcore
    have hidx' : db'.index = (add_core ⟨db.content, p, db.index⟩ items).2.index := by
      rw [← h2]
    have hcont' : db'.content = (add_core ⟨db.content, p, db.index⟩ items).2.content := by
      rw [← h2]
    refine ⟨front, ?_, ?_, dumps_ne_nil _, natRepr_no_newline _, natRepr_ne_nil _, ?_⟩
    · rw [hcont', hidx']
      exact hshape
    · rw [hidx']
      exact dumps_no_newline _
    · intro q
      have hload := load_index_found_fresh front (dumps db'.index) q db'.index true
        (List.length_pos.mpr (dumps_ne_nil _)) (pyJsonLoads_dumps db'.index hwf)
      rw [show db'.content = front ++ dumps db'.index ++ '\n' :: natRepr front.length
        from by rw [hcont', hidx']; exact hshape]
      rw [hload]
      simp

/-- C2 witness: one `add` on a fresh empty store. -/
theorem claim_C2_witness :
    ∃ front : List Char,
      (Jsondb.add freshDb [("a".toList, JValue.jnum 1)]).2.content =
        front ++ dumps (Jsondb.add freshDb [("a".toList, JValue.jnum 1)]).2.index ++
          '\n' :: natRepr front.length ∧
      '\n' ∉ dumps (Jsondb.add freshDb [("a".toList, JValue.jnum 1)]).2.index ∧
      dumps (Jsondb.add freshDb [("a".toList, JValue.jnum 1)]).2.index ≠ [] ∧
      '\n' ∉ natRepr front.length ∧ natRepr front.length ≠ [] ∧
      ∀ p : Nat, load_index
          ⟨(Jsondb.add freshDb [("a".toList, JValue.jnum 1)]).2.content, p, .jobj []⟩
          true false =
        ⟨front, p, (Jsondb.add freshDb [("a".toList, JValue.jnum 1)]).2.index⟩ :=
  claim_C2_single_footer freshDb [("a".toList, JValue.jnum 1)]
    (Jsondb.add freshDb [("a".toList, JValue.jnum 1)]).2 rfl rfl

/-- C6: every call to `add`, `get` or `get_many` on an instance holding no
file handle fails with the distinct `ClosedDatabaseError` and touches
nothing (the state is returned unchanged), and with a handle held the
`requires_fio` guard passes the call through to the underlying operation
unchanged. -/
theorem claim_C6_closed_guard (db : Jsondb) (items : List (List Char × JValue))
    (ks : List (List Char)) (k : List Char) :
    (db.fio = none →
      Jsondb.add db items = (.error .closedDatabaseError, db) ∧
      Jsondb.get_many db ks = (.error .closedDatabaseError, db) ∧
      Jsondb.get db k = (.error .closedDatabaseError, db)) ∧
    (∀ p : Nat, db.fio = some p →
      Jsondb.add db items =
        ((add_core ⟨db.content, p, db.index⟩ items).1,
          ⟨some (add_core ⟨db.content, p, db.index⟩ items).2.pos,
            (add_core ⟨db.content, p, db.index⟩ items).2.content,
            (add_core ⟨db.content, p, db.index⟩ items).2.index⟩) ∧
      Jsondb.get_many db ks =
        ((get_many_core ⟨db.content, p, db.index⟩ ks).1,
          ⟨some (get_many_core ⟨db.content, p, db.index⟩ ks).2.pos,
            (get_many_core ⟨db.content, p, db.index⟩ ks).2.content,
            (get_many_core ⟨db.content, p, db.index⟩ ks).2.index⟩) ∧
      Jsondb.get db k =
        ((get_core ⟨db.content, p, db.index⟩ k).1,
          ⟨some (get_core ⟨db.content, p, db.index⟩ k).2.pos,
            (get_core ⟨db.content, p, db.index⟩ k).2.content,
            (get_core ⟨db.content, p, db.index⟩ k).2.index⟩)) := by
  constructor
  · intro h
    refine ⟨?_, ?_, ?_⟩ <;> simp [Jsondb.add, Jsondb.get_many, Jsondb.get, h]
  · intro p h
    refine ⟨?_, ?_, ?_⟩ <;> simp [Jsondb.add, Jsondb.get_many, Jsondb.get, h]

/-- C6 witness: a closed instance (after `close`) rejects all three
operations with `ClosedDatabaseError`, and an open fresh instance passes
`get` through to the core read. -/
theorem claim_C6_witness :
    Jsondb.add (Jsondb.close freshDb) [] = (.error .closedDatabaseError,
      Jsondb.close freshDb) ∧
    Jsondb.get_many (Jsondb.close freshDb) [] = (.error .closedDatabaseError,
      Jsondb.close freshDb) ∧
    Jsondb.get (Jsondb.close freshDb) ("a".toList) = (.error .closedDatabaseError,
      Jsondb.close freshDb) ∧
    Jsondb.get freshDb ("a".toList) =
      ((get_core ⟨freshDb.content, 0, freshDb.index⟩ ("a".toList)).1,
        ⟨some (get_core ⟨freshDb.content, 0, freshDb.index⟩ ("a".toList)).2.pos,
          (get_core ⟨freshDb.content, 0, freshDb.index⟩ ("a".toList)).2.content,
          (get_core ⟨freshDb.content, 0, freshDb.index⟩ ("a".toList)).2.index⟩) := by
  have hclosed := (claim_C6_closed_guard (Jsondb.close freshDb) [] [] ("a".toList)).1 rfl
  have hopen := ((claim_C6_closed_guard freshDb [] [] ("a".toList)).2 0 rfl).2.2
  exact ⟨hclosed.1, hclosed.2.1, hclosed.2.2, hopen⟩

/-! ## Read-path idempotence helpers -/

theorem get_core_snd (st : DbState) (k : List Char) :
    (get_core st k).2 = (get_many_core st [k]).2 := by
  unfold get_core
  cases h : get_many_core st [k] with
  | mk r st' =>
    cases r with
    | ok res => simp
    | error e => simp

theorem get_core_fst_map (st : DbState) (k : List Char) :
    (get_core st k).1 =
      Except.map (fun res => alistGetD res k []) (get_many_core st [k]).1 := by
  unfold get_core
  cases h : get_many_core st [k] with
  | mk r st' =>
    cases r with
    | ok res => simp [Except.map]
    | error e => simp [Except.map]

theorem get_many_core_fst_idem (st : DbState) (ks : List (List Char)) :
    (get_many_core (get_many_core st ks).2 ks).1 = (get_many_core st ks).1 := by
  have hst2 : (get_many_core st ks).2 =
      ⟨st.content, (get_many_core st ks).2.pos, (load_index st false false).index⟩ := by
    rw [← get_many_core_content st ks, ← get_many_core_index st ks]
  have hidx2 : (load_index (get_many_core st ks).2 false false).index =
      (load_index st false false).index := by
    rw [hst2]
    exact load_index_idem st.content st.pos (get_many_core st ks).2.pos st.index
  rw [get_many_core_fst, get_many_core_fst st ks, get_many_core_content st ks, hidx2]

/-- C7: the read path is idempotent and write-free — `get_many` (and `get`)
leave the backing file byte-for-byte unchanged (the index is loaded without
truncation, so the footer survives), and repeating the same call on the
post-read state returns the identical result while still leaving the file
unchanged. -/
theorem claim_C7_idempotent_reads (st : DbState) (ks : List (List Char))
    (k : List Char) :
    (get_many_core st ks).2.content = st.content ∧
    (get_many_core (get_many_core st ks).2 ks).1 = (get_many_core st ks).1 ∧
    (get_many_core (get_many_core st ks).2 ks).2.content = st.content ∧
    (get_core st k).2.content = st.content ∧
    (get_core (get_core st k).2 k).1 = (get_core st k).1 ∧
    (get_core (get_core st k).2 k).2.content = st.content := by
  have h2c : (get_many_core (get_many_core st ks).2 ks).2.content = st.content := by
    rw [get_many_core_content (get_many_core st ks).2 ks, get_many_core_content st ks]
  have hg2 : (get_core st k).2.content = st.content := by
    rw [get_core_snd, get_many_core_content]
  have hgidem : (get_core (get_core st k).2 k).1 = (get_core st k).1 := by
    rw [get_core_fst_map, get_core_fst_map st k, get_core_snd st k,
      get_many_core_fst_idem st [k]]
  have hg2c : (get_core (get_core st k).2 k).2.content = st.content := by
    rw [get_core_snd, get_core_snd st k, get_many_core_content, get_many_core_content]
  exact ⟨get_many_core_content st ks, get_many_core_fst_idem st ks, h2c, hg2,
    hgidem, hg2c⟩

/-- C10 counterexample: the claim says the in-memory index mapping is left
unchanged by `add(\x7b\x7d)`, but when the in-memory cache is empty (the state of a
freshly opened instance) the footer loader inside `add` replaces it with
the index parsed from the file: on a file holding one record for "a" and a
valid footer, `add(\x7b\x7d)` succeeds and the in-memory index changes from `\x7b\x7d` to
`\x7b"a": [0]\x7d`. -/
theorem claim_C10_counterexample :
    (add_core ⟨"\x7b\"a\": 1\x7d\n\x7b\"a\": [0]\x7d\n9".toList, 0, .jobj []⟩ []).1 =
      .ok () ∧
    (add_core ⟨"\x7b\"a\": 1\x7d\n\x7b\"a\": [0]\x7d\n9".toList, 0, .jobj []⟩ []).2.index =
      .jobj [("a".toList, .jarr [.jnum 0])] ∧
    (add_core ⟨"\x7b\"a\": 1\x7d\n\x7b\"a\": [0]\x7d\n9".toList, 0, .jobj []⟩ []).2.index ≠
      (.jobj [] : JValue) := by
  refine ⟨rfl, rfl, ?_⟩
  rw [show (add_core ⟨"\x7b\"a\": 1\x7d\n\x7b\"a\": [0]\x7d\n9".toList, 0,
      .jobj []⟩ []).2.index = .jobj [("a".toList, .jarr [.jnum 0])] from rfl]
  simp

/-- C10 amended: calling `add` with an empty mapping on a store containing
at least one record and a well-formed footer still mutates the file: the
stale footer is truncated away and the new footer's JSON line is written
starting one byte before the end of the remaining records, overwriting the
trailing newline of the last record; and provided the in-memory index cache
is non-empty (so the loader keeps it), the in-memory index mapping is left
unchanged. -/
theorem claim_C10_empty_add_amended (st : DbState) (B F : List Char)
    (hc : st.content = (B ++ ['\n']) ++ F ++ '\n' :: natRepr (B ++ ['\n']).length)
    (hF : 1 ≤ F.length)
    (hcache : isEmptyDict st.index = false) :
    (add_core st []).1 = .ok () ∧
    (add_core st []).2.index = st.index ∧
    (add_core st []).2.content = B ++ dumps st.index ++ '\n' :: natRepr B.length := by
  have hload : load_index st true false = ⟨B ++ ['\n'], st.pos, st.index⟩ := by
    have h := load_index_found_cache (B ++ ['\n']) F st.pos st.index true hF hcache
    rw [if_pos rfl] at h
    calc load_index st true false
        = load_index ⟨(B ++ ['\n']) ++ F ++ '\n' :: natRepr (B ++ ['\n']).length,
            st.pos, st.index⟩ true false := by rw [← hc]
      _ = ⟨B ++ ['\n'], st.pos, st.index⟩ := h
  have hstate : ({load_index st true false with
      pos := (load_index st true false).content.length - 1} : DbState) =
      ⟨B ++ ['\n'], B.length, st.index⟩ := by
    rw [hload]
    simp
  have hd1 : 1 ≤ (dumps st.index).length := List.length_pos.mpr (dumps_ne_nil _)
  have hc3 := pyWrite_snug (B ++ ['\n']) B.length (dumps st.index ++ ['\n'])
    (by simp only [List.length_append, List.length_cons, List.length_nil]; omega)
    (by simp only [List.length_append, List.length_cons, List.length_nil]; omega)
  have hc3' : pyWrite (B ++ ['\n']) B.length (dumps st.index ++ ['\n']) =
      B ++ (dumps st.index ++ ['\n']) := by
    rw [hc3, List.take_left]
  have hc4 := pyWrite_snug (B ++ (dumps st.index ++ ['\n']))
    (B.length + (dumps st.index ++ ['\n']).length) (natRepr B.length)
    (by simp only [List.length_append, List.length_cons, List.length_nil]; omega)
    (by simp only [List.length_append, List.length_cons, List.length_nil]; omega)
  have hc4' : pyWrite (B ++ (dumps st.index ++ ['\n']))
      (B.length + (dumps st.index ++ ['\n']).length) (natRepr B.length) =
      B ++ (dumps st.index ++ ['\n']) ++ natRepr B.length := by
    rw [hc4, List.take_of_length_le (by
      simp only [List.length_append, List.length_cons, List.length_nil]; omega)]
  simp only [add_core, hstate, addLoop]
  refine ⟨trivial, trivial, ?_⟩
  show pyWrite (pyWrite (B ++ ['\n']) B.length (dumps st.index ++ ['\n']))
      (B.length + (dumps st.index ++ ['\n']).length) (natRepr B.length) =
    B ++ dumps st.index ++ '\n' :: natRepr B.length
  rw [hc3', hc4']
  simp [List.append_assoc]

/-- C10 amended witness: `add(\x7b\x7d)` on a one-record store whose in-memory
cache already holds the index. -/
theorem claim_C10_amended_witness :
    (add_core ⟨"\x7b\"a\": 1\x7d\n\x7b\"a\": [0]\x7d\n9".toList, 0,
        .jobj [("a".toList, .jarr [.jnum 0])]⟩ []).1 = .ok () ∧
    (add_core ⟨"\x7b\"a\": 1\x7d\n\x7b\"a\": [0]\x7d\n9".toList, 0,
        .jobj [("a".toList, .jarr [.jnum 0])]⟩ []).2.index =
      (⟨"\x7b\"a\": 1\x7d\n\x7b\"a\": [0]\x7d\n9".toList, 0,
        .jobj [("a".toList, .jarr [.jnum 0])]⟩ : DbState).index ∧
    (add_core ⟨"\x7b\"a\": 1\x7d\n\x7b\"a\": [0]\x7d\n9".toList, 0,
        .jobj [("a".toList, .jarr [.jnum 0])]⟩ []).2.content =
      "\x7b\"a\": 1\x7d".toList ++
        dumps (⟨"\x7b\"a\": 1\x7d\n\x7b\"a\": [0]\x7d\n9".toList, 0,
          .jobj [("a".toList, .jarr [.jnum 0])]⟩ : DbState).index ++
        '\n' :: natRepr ("\x7b\"a\": 1\x7d".toList).length :=
  claim_C10_empty_add_amended
    ⟨"\x7b\"a\": 1\x7d\n\x7b\"a\": [0]\x7d\n9".toList, 0,
      .jobj [("a".toList, .jarr [.jnum 0])]⟩
    ("\x7b\"a\": 1\x7d".toList) ("\x7b\"a\": [0]\x7d".toList) rfl (by decide) rfl

/-- C9: if the index maps a requested key to an offset list whose first
problematic entry is a nonnegative offset pointing at a line that does not
parse as JSON (keys before it absent or falsy, offsets before it readable),
then `get_many` — and hence `get` — raises exactly the JSON decode error,
uncaught: the silent degrade-to-empty policy applies only to the footer
loader, not to record lines read on the read path. -/
theorem claim_C9_bad_record_line (st : DbState) (ks1 ks2 : List (List Char))
    (k : List Char) (es : List (List Char × JValue)) (offs1 offs2 : List JValue)
    (o : Int)
    (h1 : (load_index st false false).index = .jobj es)
    (h2 : ∀ k' ∈ ks1, alistGet es k' = none ∨
      ∃ tp, alistGet es k' = some tp ∧ pyTruthy tp = false)
    (h3 : alistGet es k = some (.jarr (offs1 ++ .jnum o :: offs2)))
    (h4 : ∀ x ∈ offs1, ∃ o' : Int, x = .jnum o' ∧ 0 ≤ o' ∧
      ∃ es' : List (List Char × JValue),
        pyJsonLoads (pyReadLine st.content o'.toNat) = some (.jobj es'))
    (h5 : 0 ≤ o)
    (h6 : pyJsonLoads (pyReadLine st.content o.toNat) = none) :
    (get_many_core st (ks1 ++ k :: ks2)).1 = .error .jsonDecodeError ∧
    (get_core st k).1 = .error .jsonDecodeError := by
  constructor
  · rw [get_many_core_fst st (ks1 ++ k :: ks2), h1]
    exact getManyLoop_first_bad st.content es ks1 ks2 k [] 0 offs1 offs2 o
      h2 h3 h4 h5 h6
  · rw [get_core_fst_map st k, get_many_core_fst st [k], h1]
    have hone := getManyLoop_first_bad st.content es [] [] k [] 0 offs1 offs2 o
      (fun k' h => absurd h (List.not_mem_nil k')) h3 h4 h5 h6
    rw [show ([] ++ k :: [] : List (List Char)) = [k] from rfl] at hone
    rw [hone]
    rfl

/-- C9 witness: a cached index points key "a" at offset 0 of a file whose
line there is `notjson`; both `get_many(["a"])` and `get("a")` raise the
JSON decode error. -/
theorem claim_C9_witness :
    (get_many_core ⟨"notjson".toList, 0,
      .jobj [("a".toList, .jarr [.jnum 0])]⟩ ["a".toList]).1 =
      .error .jsonDecodeError ∧
    (get_core ⟨"notjson".toList, 0,
      .jobj [("a".toList, .jarr [.jnum 0])]⟩ ("a".toList)).1 =
      .error .jsonDecodeError :=
  claim_C9_bad_record_line
    ⟨"notjson".toList, 0, .jobj [("a".toList, .jarr [.jnum 0])]⟩
    [] [] ("a".toList) [("a".toList, JValue.jarr [.jnum 0])] [] [] 0
    rfl (fun k' h => absurd h (List.not_mem_nil k')) rfl
    (fun x h => absurd h (List.not_mem_nil x)) (by decide) rfl
